import Mathlib

/-!
# Verification development for `pkg/builder/csolution/builder.go`

A shallow embedding of the `CSolutionBuilder` of the cbuild orchestrator.

* Go strings are modelled as lists of characters (`Str`).
* A Go `error` is modelled by its message; `Option GoError` is a possibly-nil error.
* The external world (command runner, file system, index document, per-project builder)
  is an explicit environment `Env`; every interaction with it is appended to a chronological
  trace of `Event`s which is threaded through the stateful functions.
* `path/filepath` is modelled with the POSIX separator `/`.
-/

set_option autoImplicit false

namespace CSolution

/-! ## Strings -/

/-- Go strings, as lists of characters. -/
abbrev Str := List Char

/-- A Go `error` value, represented by its message. -/
abbrev GoError := Str

/-- The Go call `strings.Contains(s, substr)`: some suffix of `s` starts with `substr`. -/
def stringsContains : Str → Str → Bool
  | [], substr => substr.isEmpty
  | c :: s, substr => substr.isPrefixOf (c :: s) || stringsContains s substr

/-- Index of the first occurrence of the character `c` in `s` (helper of `stringsIndex`). -/
def indexFrom (c : Char) : Str → Nat → Int
  | [], _ => -1
  | x :: s, i => if x = c then (i : Int) else indexFrom c s (i + 1)

/-- The Go call `strings.Index(s, string(c))` for a one-character separator:
the index of the first `c` in `s`, or `-1`. -/
def stringsIndex (s : Str) (c : Char) : Int := indexFrom c s 0

/-- The Go call `strings.Split(s, string(sep))` for a one-character separator.
The result is never empty: `Split("", sep)` is `[""]`. -/
def stringsSplit (sep : Char) : Str → List Str
  | [] => [[]]
  | c :: s =>
    if c = sep then [] :: stringsSplit sep s
    else
      match stringsSplit sep s with
      | [] => [[c]]
      | tok :: toks => (c :: tok) :: toks

/-- The Go call `strings.Join(elems, sep)`. -/
def stringsJoin : List Str → Str → Str
  | [], _ => []
  | [e], _ => e
  | e :: e' :: es, sep => e ++ sep ++ stringsJoin (e' :: es) sep

/-- The Go call `strings.ReplaceAll(s, " ", "")`: every space character is removed. -/
def removeSpaces (s : Str) : Str := s.filter (fun c => c != ' ')

/-- The Go call `strings.ReplaceAll(s, "\r\n", "\n")`, scanning from the left. -/
def replaceCRLF : Str → Str
  | [] => []
  | [c] => [c]
  | c :: d :: s =>
    if c = '\r' ∧ d = '\n' then '\n' :: replaceCRLF s else c :: replaceCRLF (d :: s)

/-- The Go predicate `unicode.IsSpace`. -/
def isSpace (c : Char) : Bool :=
  let n := c.toNat
  n = 0x09 || n = 0x0A || n = 0x0B || n = 0x0C || n = 0x0D || n = 0x20 ||
  n = 0x85 || n = 0xA0 || n = 0x1680 || (0x2000 ≤ n && n ≤ 0x200A) ||
  n = 0x2028 || n = 0x2029 || n = 0x202F || n = 0x205F || n = 0x3000

/-- The Go call `strings.TrimSpace(s)`: leading and trailing white space removed. -/
def trimSpace (s : Str) : Str :=
  ((s.dropWhile isSpace).reverse.dropWhile isSpace).reverse

/-- Lexicographic comparison of strings by code point, the order of `sort.Strings`. -/
def strLe : Str → Str → Bool
  | [], _ => true
  | _ :: _, [] => false
  | a :: s, b :: t => a.toNat < b.toNat || (a = b && strLe s t)

/-- Insertion of one string into a sorted list (helper of `sortStrings`). -/
def insertSorted (x : Str) : List Str → List Str
  | [] => [x]
  | y :: ys => if strLe x y then x :: y :: ys else y :: insertSorted x ys

/-- The Go call `sort.Strings(xs)`, as the sorted list. -/
def sortStrings (xs : List Str) : List Str := xs.foldr insertSorted []

/-! ## `path/filepath` (POSIX flavour) -/

/-- One step of `filepath.Clean` on a path element. `stack` holds the elements written so
far, most recent first. Empty and `.` elements are dropped; `..` removes the last real
element, is kept at the front of a relative path and is dropped at the root. -/
def cleanStep (rooted : Bool) (stack : List Str) (elem : Str) : List Str :=
  if elem = [] ∨ elem = ['.'] then stack
  else if elem = ['.', '.'] then
    match stack with
    | [] => if rooted then [] else [['.', '.']]
    | top :: rest =>
      if top = ['.', '.'] then (if rooted then stack else ['.', '.'] :: stack) else rest
  else elem :: stack

/-- Rendering of the cleaned elements: a leading `/` when rooted, elements joined by `/`,
and `.` instead of the empty string. -/
def cleanRender (rooted : Bool) (stack : List Str) : Str :=
  let body := stringsJoin stack.reverse ['/']
  if rooted then '/' :: body else if body = [] then ['.'] else body

/-- The Go call `filepath.Clean(path)`. -/
def filepathClean (path : Str) : Str :=
  let rooted := path.head? = some '/'
  cleanRender rooted ((stringsSplit '/' path).foldl (cleanStep rooted) [])

/-- The Go call `filepath.Dir(path)`: everything up to the last separator, cleaned. -/
def filepathDir (path : Str) : Str :=
  filepathClean (path.reverse.dropWhile (fun c => c != '/')).reverse

/-- The Go call `filepath.Base(path)`: the last element of the path. -/
def filepathBase (path : Str) : Str :=
  if path = [] then ['.']
  else
    let stripped := path.reverse.dropWhile (fun c => c == '/')
    let last := (stripped.takeWhile (fun c => c != '/')).reverse
    if last = [] then ['/'] else last

/-- The Go call `filepath.Join(elem...)`: leading empty elements are skipped, the rest is
joined with `/` and cleaned; the result is empty when every element is empty. -/
def filepathJoin : List Str → Str
  | [] => []
  | e :: es => if e = [] then filepathJoin es else filepathClean (stringsJoin (e :: es) ['/'])

/-! ## Data model -/

/-- The structured form of a context identifier (`utils.ContextItem`). -/
structure ContextItem where
  ProjectName : Str
  BuildType : Str
  TargetType : Str
deriving DecidableEq, Repr, Inhabited

/-- The option fields of `builder.Options` that the solution builder reads or writes. -/
structure Options where
  Context : Str
  Configuration : Str
  Output : Str
  Load : Str
  Schema : Bool
  UpdateRte : Bool
  Filter : Str
  Verbose : Bool
  Packs : Bool
  OutDir : Str
  IntDir : Str
deriving DecidableEq, Repr, Inhabited

/-- The installation layout (`utils.Configurations`). -/
structure InstallConfigs where
  BinPath : Str
  BinExtn : Str
  EtcPath : Str
deriving DecidableEq, Repr, Inhabited

/-- The builder parameters (`builder.BuilderParams`); the `Runner` lives in `Env`. -/
structure BuilderParams where
  Options : Options
  InputFile : Str
  InstallConfigs : InstallConfigs
deriving DecidableEq, Repr, Inhabited

/-- Interactions of the solution builder with the outside world, in source order of
appearance: environment setup, a `Runner.ExecuteCommand` call, a read of the index
document, the banner printed on entry to `processContext`, and the delegation to the
per-project builder. -/
inductive Event where
  | updateEnvVars (binPath etcPath : Str)
  | executeCommand (bin : Str) (quiet : Bool) (args : List Str)
  | parseCbuildIndexFile (idxFile : Str)
  | processingContext (context : Str)
  | cprjBuild (params : BuilderParams)
deriving DecidableEq, Repr

/-- The chronological record of interactions, oldest first. -/
abbrev Trace := List Event

/-- Result of `os.Stat` as far as the builder inspects it: success, an error for which
`os.IsNotExist` holds, or any other error. -/
inductive StatResult where
  | ok
  | notExist (err : GoError)
  | failed (err : GoError)
deriving DecidableEq, Repr

/-- The error returned by `os.Stat`, `none` for `nil`. -/
def StatResult.err : StatResult → Option GoError
  | .ok => none
  | .notExist err => some err
  | .failed err => some err

/-- The collaborators of the solution builder that are not part of `builder.go`.
Answers of the runner, of the file system (`os.Stat`), of the index reader and of the
per-project builder may depend on everything that happened before. `parseContext` and `createContext` stand for `utils.ParseContext` and
`utils.CreateContext`, each returning its value together with a possibly-nil error. -/
structure Env where
  executeCommand : Trace → Str → Bool → List Str → Except GoError Str
  stat : Trace → Str → StatResult
  parseCbuildIndexFile : Trace → Str → Except GoError (List Str)
  cprjBuild : Trace → BuilderParams → Option GoError
  parseContext : Str → ContextItem × Option GoError
  createContext : ContextItem → Str × Option GoError

/-! ## Helpers of package `utils` -/

/-- Modelled from the spec: `utils.Contains` is missing from the sources; §4.1 requires
"exact (case-sensitive) membership in catalog". -/
def utilsContains (xs : List Str) (x : Str) : Bool := decide (x ∈ xs)

/-- Modelled from the spec: `utils.AppendUnique` is missing from the sources; §4.3 says
"Append to the result only if not already present". -/
def utilsAppendUnique (xs : List Str) (x : Str) : List Str :=
  if x ∈ xs then xs else xs ++ [x]

/-- Modelled from the spec: the Configuration of a context (§3) is the "substring of a
Context beginning at its first `.` if present, else at its first `+` if present; else the
context has no configuration". -/
def configurationOf (context : Str) : Option Str :=
  if '.' ∈ context then some (context.dropWhile (fun c => c != '.'))
  else if '+' ∈ context then some (context.dropWhile (fun c => c != '+'))
  else none

/-- Modelled from the spec: `utils.GetSelectedContexts` is missing from the sources; §4.4
says "selection = subset of the declaration-order catalog whose Configuration suffix
equals `Configuration` exactly; fails with `NotFoundError` if the subset is empty". -/
def utilsGetSelectedContexts (allContexts : List Str) (configuration : Str) :
    Except GoError (List Str) :=
  let selected := allContexts.filter (fun c => decide (configurationOf c = some configuration))
  if selected = [] then .error "NotFoundError".data else .ok selected

/-- Modelled from the spec: `utils.ParseContext` is missing from the sources; §4.1 gives
the grammar `project[.buildType]+targetType`: project is everything before the first `.`
or `+`, targetType everything after the last `+`, buildType the segment between the first
`.` and the first `+` when the `.` comes first; it fails when the string lacks `+` or the
targetType is empty. -/
def specParseContext (s : Str) : ContextItem × Option GoError :=
  let project := s.takeWhile (fun c => c != '.' && c != '+')
  let target := (s.reverse.takeWhile (fun c => c != '+')).reverse
  let afterProject := s.dropWhile (fun c => c != '.' && c != '+')
  let build := if afterProject.head? = some '.' then
      (afterProject.drop 1).takeWhile (fun c => c != '+') else []
  if '+' ∈ s ∧ target ≠ [] then (⟨project, build, target⟩, none)
  else (⟨[], [], []⟩, some "FormatError".data)

/-- Modelled from the spec: `utils.CreateContext` is missing from the sources; §4.1:
"reassembles `project[.buildType]+targetType`; omits the `.buildType` segment when
BuildType is empty". -/
def specCreateContext (item : ContextItem) : Str × Option GoError :=
  (item.ProjectName ++ (if item.BuildType = [] then [] else '.' :: item.BuildType)
    ++ '+' :: item.TargetType, none)

/-! ## `CSolutionBuilder` -/

/-- The method `formulateArgs` (lines 27-65). -/
def formulateArgs (b : BuilderParams) (command : List Str) : Except GoError (List Str) :=
  if b.Options.Context ≠ [] ∧ b.Options.Configuration ≠ [] then
    .error "options '--context' and '--configuration' cannot be used together".data
  else
    .ok (command
      ++ (if b.InputFile ≠ [] then ["--solution=".data ++ b.InputFile] else [])
      ++ (if b.Options.Output ≠ [] then ["--output=".data ++ b.Options.Output] else [])
      ++ (if b.Options.Load ≠ [] then ["--load=".data ++ b.Options.Load] else [])
      ++ (if !b.Options.Schema then ["--no-check-schema".data] else [])
      ++ (if !b.Options.UpdateRte then ["--no-update-rte".data] else [])
      ++ (if b.Options.Configuration ≠ [] then
            ["--context=*".data ++ b.Options.Configuration] else [])
      ++ (if b.Options.Context ≠ [] then ["--context=".data ++ b.Options.Context] else [])
      ++ (if b.Options.Filter ≠ [] then ["--filter=".data ++ b.Options.Filter] else [])
      ++ (if b.Options.Verbose then ["--verbose".data] else []))

/-- The method `getCSolutionPath` (lines 139-145): the path and the error of `os.Stat`. -/
def getCSolutionPath (env : Env) (b : BuilderParams) (t : Trace) : Str × Option GoError :=
  let path := filepathJoin [b.InstallConfigs.BinPath, "csolution".data ++ b.InstallConfigs.BinExtn]
  (path, (env.stat t path).err)

/-- The method `runCSolution` (lines 67-79). -/
def runCSolution (env : Env) (b : BuilderParams) (args : List Str) (quite : Bool)
    (t : Trace) : Except GoError Str × Trace :=
  match getCSolutionPath env b t with
  | (_, some err) => (.error err, t)
  | (csolutionBin, none) =>
    (env.executeCommand t csolutionBin quite args,
      t ++ [Event.executeCommand csolutionBin quite args])

/-- The loop of `installMissingPacks` over the lines of the listing (lines 98-116). -/
def installPacks (env : Env) (b : BuilderParams) : List Str → Trace → Option GoError × Trace
  | [], t => (none, t)
  | pack :: rest, t =>
    let pack := removeSpaces pack
    if pack = [] then installPacks env b rest t
    else
      let args := ["pack".data, "add".data, pack, "--force-reinstall".data,
        "--agree-embedded-license".data]
      let cpackgetBin :=
        filepathJoin [b.InstallConfigs.BinPath, "cpackget".data ++ b.InstallConfigs.BinExtn]
      match env.stat t cpackgetBin with
      | .notExist err => (some err, t)
      | _ =>
        match env.executeCommand t cpackgetBin false args with
        | .error err => (some err, t ++ [Event.executeCommand cpackgetBin false args])
        | .ok _ => installPacks env b rest (t ++ [Event.executeCommand cpackgetBin false args])

/-- The method `installMissingPacks` (lines 81-117). -/
def installMissingPacks (env : Env) (b : BuilderParams) (t : Trace) : Option GoError × Trace :=
  match formulateArgs b ["list".data, "packs".data] with
  | .error err => (some err, t)
  | .ok args =>
    match runCSolution env b (args ++ ["-m".data]) false t with
    | (.error err, t) => (some err, t)
    | (.ok output, t) =>
      installPacks env b (stringsSplit '\n' (replaceCRLF (trimSpace output))) t

/-- The search loop of `getCprjFilePath` (lines 123-129): the stored path of the first
entry that contains the context name, the empty string if there is none. -/
def findCbuild (context : Str) : List Str → Str
  | [] => []
  | cbuild :: rest => if stringsContains cbuild context then cbuild else findCbuild context rest

/-- The method `getCprjFilePath` (lines 119-137). -/
def getCprjFilePath (env : Env) (idxFile context : Str) (t : Trace) :
    (Str × Option GoError) × Trace :=
  match env.parseCbuildIndexFile t idxFile with
  | .error err => (([], some err), t ++ [Event.parseCbuildIndexFile idxFile])
  | .ok cbuilds =>
    let path := findCbuild context cbuilds
    if path = [] then
      (([], some "cprj file path not found".data), t ++ [Event.parseCbuildIndexFile idxFile])
    else
      ((filepathDir idxFile ++ "/".data ++ filepathDir path ++ "/".data ++ context
          ++ ".cprj".data, none),
        t ++ [Event.parseCbuildIndexFile idxFile])

/-- The method `validateContext` (lines 147-164). -/
def validateContext (env : Env) (allContexts : List Str) (inputContext : Str) :
    Str × Option GoError :=
  match env.parseContext inputContext with
  | (_, some err) => ([], some err)
  | (contextItem, none) =>
    match env.createContext contextItem with
    | (context, some err) => (context, some err)
    | (context, none) =>
      if !utilsContains allContexts context then
        (context, some ("specified context '".data ++ inputContext ++
          "' not found. One of the following contexts must be specified:\n".data ++
          stringsJoin (sortStrings allContexts) "\n".data))
      else (context, none)

/-- The closure `formulatePath` of `processContext` (lines 167-174). -/
def formulatePath (cprjFilePath dir : Str) (context : ContextItem) : Str :=
  let path := filepathJoin [filepathDir cprjFilePath, dir, context.ProjectName]
  let path := if context.BuildType ≠ [] then filepathJoin [path, context.BuildType] else path
  filepathJoin [path, context.TargetType]

/-- The method `processContext` (lines 166-227). -/
def processContext (env : Env) (b : BuilderParams) (context : Str) (t : Trace) :
    Option GoError × Trace :=
  let t := t ++ [Event.processingContext context]
  let nameTokens := stringsSplit '.' (filepathBase b.InputFile)
  if nameTokens.length ≠ 3 then (some "invalid csolution file name".data, t)
  else
    let outputDir := if b.Options.Output = [] then filepathDir b.InputFile else b.Options.Output
    match getCprjFilePath env
        (filepathJoin [outputDir, nameTokens.headD [] ++ ".cbuild-idx.yml".data]) context t with
    | ((_, some err), t) => (some err, t)
    | ((cprjFile, none), t) =>
      let selectedContext := (env.parseContext context).1
      let cprjBuildOptions : Options :=
        { b.Options with
          OutDir := formulatePath cprjFile "out".data selectedContext
          IntDir := formulatePath cprjFile "tmp".data selectedContext }
      let cprjBuilder : BuilderParams :=
        { Options := cprjBuildOptions, InputFile := cprjFile, InstallConfigs := b.InstallConfigs }
      (env.cprjBuild t cprjBuilder, t ++ [Event.cprjBuild cprjBuilder])

/-- The parsing of the tool output in `listContexts` (lines 287-290). -/
def parseListOutput (output : Str) : List Str :=
  let output := removeSpaces output
  if output ≠ [] then stringsSplit '\n' (replaceCRLF (trimSpace output)) else []

/-- The method `listContexts` (lines 271-292). -/
def listContexts (env : Env) (b : BuilderParams) (quite ymlOrder : Bool) (t : Trace) :
    Except GoError (List Str) × Trace :=
  match formulateArgs b ["list".data, "contexts".data] with
  | .error err => (.error err, t)
  | .ok args =>
    match runCSolution env b (if ymlOrder then args ++ ["--yml-order".data] else args) quite t with
    | (.error err, t) => (.error err, t)
    | (.ok output, t) => (.ok (parseListOutput output), t)

/-- The loop of `listConfigurations` over the contexts (lines 239-258), with the list of
configurations collected so far. -/
def configurationsLoop (filter : Str) : List Str → List Str → List Str
  | [], configurations => configurations
  | context :: rest, configurations =>
    let buildIdx := stringsIndex context '.'
    let targetIdx := stringsIndex context '+'
    if buildIdx = -1 ∧ targetIdx = -1 then configurationsLoop filter rest configurations
    else
      let config :=
        if buildIdx ≠ -1 then context.drop buildIdx.toNat else context.drop targetIdx.toNat
      if filter ≠ [] then
        if stringsContains config filter then
          configurationsLoop filter rest (utilsAppendUnique configurations config)
        else configurationsLoop filter rest configurations
      else configurationsLoop filter rest (utilsAppendUnique configurations config)

/-- The method `listConfigurations` (lines 229-269). -/
def listConfigurations (env : Env) (b : BuilderParams) (t : Trace) :
    Except GoError (List Str) × Trace :=
  let filter := b.Options.Filter
  let b : BuilderParams := { b with Options := { b.Options with Filter := [] } }
  match listContexts env b true false t with
  | (.error _, t) => (.error "processing configurations list failed".data, t)
  | (.ok contexts, t) =>
    let configurations := configurationsLoop filter contexts []
    if configurations.length = 0 ∧ filter ≠ [] then
      (.error "processing configurations list failed".data, t)
    else (.ok configurations, t)

/-- The selection step of `Build` (lines 342-363): the builder, whose `Context` option is
replaced by the validated context, and the selected contexts. -/
def selectContexts (env : Env) (b : BuilderParams) (allContexts : List Str) :
    Except GoError (BuilderParams × List Str) :=
  if b.Options.Context ≠ [] then
    match validateContext env allContexts b.Options.Context with
    | (_, some err) => .error err
    | (context, none) =>
      .ok ({ b with Options := { b.Options with Context := context } }, [context])
  else if b.Options.Configuration = [] then .ok (b, allContexts)
  else
    match utilsGetSelectedContexts allContexts b.Options.Configuration with
    | .error err => .error err
    | .ok selectedContexts => .ok (b, selectedContexts)

/-- The loop of step 2 of `Build` (lines 385-393). -/
def processContexts (env : Env) (b : BuilderParams) : List Str → Trace → Option GoError × Trace
  | [], t => (none, t)
  | context :: rest, t =>
    match processContext env b context t with
    | (some err, t) => (some err, t)
    | (none, t) => processContexts env b rest t

/-- The part of `Build` before the conversion (lines 333-376): environment setup, context
listing, selection, argument formulation and pack installation. On success it yields the
builder, the selected contexts and the arguments of the conversion. -/
def buildPrepare (env : Env) (b : BuilderParams) (t : Trace) :
    Except GoError (BuilderParams × List Str × List Str) × Trace :=
  let t := t ++ [Event.updateEnvVars b.InstallConfigs.BinPath b.InstallConfigs.EtcPath]
  match listContexts env b true true t with
  | (.error err, t) => (.error err, t)
  | (.ok allContexts, t) =>
    match selectContexts env b allContexts with
    | .error err => (.error err, t)
    | .ok (b, selectedContexts) =>
      match formulateArgs b ["convert".data] with
      | .error err => (.error err, t)
      | .ok args =>
        if b.Options.Packs then
          match installMissingPacks env b t with
          | (some err, t) => (.error err, t)
          | (none, t) => (.ok (b, selectedContexts, args), t)
        else (.ok (b, selectedContexts, args), t)

/-- The method `Build` (lines 332-394). -/
def Build (env : Env) (b : BuilderParams) (t : Trace) : Option GoError × Trace :=
  match buildPrepare env b t with
  | (.error err, t) => (some err, t)
  | (.ok (b, selectedContexts, args), t) =>
    match runCSolution env b args false t with
    | (.error err, t) => (some err, t)
    | (.ok _, t) => processContexts env b selectedContexts t

/-- The parsing of the tool output in `listToolchains` (lines 306-309). -/
def parseToolchainsOutput (output : Str) : List Str :=
  let output := removeSpaces output
  if output ≠ [] then stringsSplit '\n' (replaceCRLF (trimSpace output)) else []

/-- The method `listToolchains` (lines 294-311). -/
def listToolchains (env : Env) (b : BuilderParams) (quite : Bool) (t : Trace) :
    Except GoError (List Str) × Trace :=
  match formulateArgs b ["list".data, "toolchains".data] with
  | .error err => (.error err, t)
  | .ok args =>
    match runCSolution env b args quite t with
    | (.error err, t) => (.error err, t)
    | (.ok output, t) => (.ok (parseToolchainsOutput output), t)

/-! ## Sample inputs -/

/-- A sample environment: every tool call prints `listing`, every binary is installed, the
index document holds `cbuilds`, and the per-project builder succeeds. -/
def sampleEnv (listing : Str) (cbuilds : List Str) : Env where
  executeCommand := fun _ _ _ _ => .ok listing
  stat := fun _ _ => .ok
  parseCbuildIndexFile := fun _ _ => .ok cbuilds
  cprjBuild := fun _ _ => none
  parseContext := specParseContext
  createContext := specCreateContext

/-- Sample options: schema check and RTE update on, everything else unset. -/
def sampleOptions : Options :=
  { Context := [], Configuration := [], Output := [], Load := [], Schema := true,
    UpdateRte := true, Filter := [], Verbose := false, Packs := false, OutDir := [],
    IntDir := [] }

/-- A sample builder for the solution `sol/MySolution.csolution.yml`. -/
def sampleBuilder (o : Options) : BuilderParams :=
  { Options := o, InputFile := "sol/MySolution.csolution.yml".data,
    InstallConfigs := { BinPath := "/opt/bin".data, BinExtn := [], EtcPath := "/opt/etc".data } }

/-! ## Observations on traces and specification-side notions -/

/-- The context announced by a `processingContext` event. -/
def Event.processed? : Event → Option Str
  | .processingContext context => some context
  | _ => none

/-- The contexts whose processing was started, in chronological order. -/
def processedContexts (evs : Trace) : List Str := evs.filterMap Event.processed?

/-- The trace reached after the loop of step 2 has run over `contexts`. -/
def traceAfter (env : Env) (b : BuilderParams) (contexts : List Str) (t : Trace) : Trace :=
  (processContexts env b contexts t).2

/-- A sample environment for a solution with three contexts of which only the first has
an entry in the index document. -/
def threeContextsEnv : Env :=
  sampleEnv "A.Debug+Board\nB.Debug+Board\nC.Debug+Board\n".data
    ["A.Debug+Board.cbuild.yml".data]

/-- The configuration suffixes of the catalog, in catalog order, that pass the filter: a
context with neither `.` nor `+` is skipped, and a non-empty filter keeps only the suffixes
that contain it as a substring. -/
def candidateConfigurations (catalog : List Str) (filter : Str) : List Str :=
  (catalog.filterMap configurationOf).filter
    (fun config => decide (filter = [] ∨ filter <:+: config))

/-- The sequence of configurations in the words of the specification: the candidates are
gone through in order and each is appended only if it is not already in the result. -/
def specConfigurations (catalog : List Str) (filter : Str) : List Str :=
  (candidateConfigurations catalog filter).foldl
    (fun result config => if config ∈ result then result else result ++ [config]) []

/-- The list without its repeated entries: every value stays at its first occurrence. -/
def dedupFirst : List Str → List Str
  | [] => []
  | x :: xs => x :: (dedupFirst xs).filter (fun y => decide (y ≠ x))

/-- Whether the event is an invocation of the `convert` operation. -/
def Event.isConvert : Event → Bool
  | .executeCommand _ _ args => decide (args.head? = some "convert".data)
  | _ => false

/-- Events of the preparation phase: neither a conversion nor the start of a context. -/
def Event.isPreparation (e : Event) : Bool := !e.isConvert && e.processed?.isNone

/-- The path of the index document that `processContext` reads (lines 193-198). -/
def indexFileOf (b : BuilderParams) : Str :=
  filepathJoin [if b.Options.Output = [] then filepathDir b.InputFile else b.Options.Output,
    (stringsSplit '.' (filepathBase b.InputFile)).headD [] ++ ".cbuild-idx.yml".data]

/-- Well-formed element stacks of `filepath.Clean`: elements are non-empty, free of
separators and different from `.`; `..` occurs only in a relative path and only below
other `..` elements. -/
def validStack (rooted : Bool) : List Str → Prop
  | [] => True
  | e :: stack =>
    e ≠ [] ∧ e ≠ ['.'] ∧ '/' ∉ e ∧
    (e = ['.', '.'] → rooted = false ∧ ∀ x ∈ stack, x = ['.', '.']) ∧
    validStack rooted stack

/-- The arguments of one pack installation (line 103). -/
def packArgs (pack : Str) : List Str :=
  ["pack".data, "add".data, pack, "--force-reinstall".data, "--agree-embedded-license".data]

/-- The path of the external compiler (line 140). -/
def csolutionBinOf (b : BuilderParams) : Str :=
  filepathJoin [b.InstallConfigs.BinPath, "csolution".data ++ b.InstallConfigs.BinExtn]

/-- Whether the event is a call of the runner. -/
def Event.isCommand : Event → Bool
  | .executeCommand _ _ _ => true
  | _ => false

/-- A sample environment in which the installed binaries are found until the first command
has run and are reported missing afterwards; everything else is as in `sampleEnv`. -/
def vanishingEnv (listing : Str) (cbuilds : List Str) : Env :=
  { sampleEnv listing cbuilds with
    stat := fun t _ =>
      if t.any Event.isCommand then .notExist "stat: no such file".data else .ok }

/-- The path of the pack installer (line 104). -/
def cpackgetBinOf (b : BuilderParams) : Str :=
  filepathJoin [b.InstallConfigs.BinPath, "cpackget".data ++ b.InstallConfigs.BinExtn]

/-- The runner call that installs one pack. -/
def installEvent (b : BuilderParams) (pack : Str) : Event :=
  Event.executeCommand (cpackgetBinOf b) false (packArgs pack)

/-- The pack identifiers among the lines of a listing: each line without its spaces,
the lines that are then empty left out. -/
def packIdsOfLines (lines : List Str) : List Str :=
  (lines.map removeSpaces).filter (fun pack => decide (pack ≠ []))

/-- The pack identifiers of the missing-pack listing printed by the external tool. -/
def missingPackIds (output : Str) : List Str :=
  packIdsOfLines (stringsSplit '\n' (replaceCRLF (trimSpace output)))

/-- The flag vector in the words of the specification: the table of the common flags in
their fixed order, each with the condition under which it is present; the flags whose
condition holds are kept. -/
def specFlagVector (b : BuilderParams) : List Str :=
  ([(decide (b.InputFile ≠ []), "--solution=".data ++ b.InputFile),
    (decide (b.Options.Output ≠ []), "--output=".data ++ b.Options.Output),
    (decide (b.Options.Load ≠ []), "--load=".data ++ b.Options.Load),
    (!b.Options.Schema, "--no-check-schema".data),
    (!b.Options.UpdateRte, "--no-update-rte".data),
    (decide (b.Options.Configuration ≠ []), "--context=*".data ++ b.Options.Configuration),
    (decide (b.Options.Context ≠ []), "--context=".data ++ b.Options.Context),
    (decide (b.Options.Filter ≠ []), "--filter=".data ++ b.Options.Filter),
    (b.Options.Verbose, "--verbose".data)].filter (fun row => row.1)).map (fun row => row.2)

/-- The event, if it is a `list contexts` invocation, is the quiet one that requests the
declaration order for the builder `b`: its arguments are those formulated for the command
followed by `--yml-order`. -/
def ymlOrderListing (b : BuilderParams) (e : Event) : Prop :=
  ∀ bin quiet args, e = Event.executeCommand bin quiet args →
    args.take 2 = ["list".data, "contexts".data] →
    quiet = true ∧ ∃ base, formulateArgs b ["list".data, "contexts".data] = .ok base ∧
      args = base ++ ["--yml-order".data]

/-! ## Mutual exclusion of `Context` and `Configuration` -/

/-- The message of the error raised by `formulateArgs`. -/
def exclusiveOptionsError : GoError :=
  "options '--context' and '--configuration' cannot be used together".data

/-- C1: when `Context` and `Configuration` are both non-empty, `Build` returns the
mutual-exclusion error, and the only interaction of the run is the environment setup, so no
command is handed to the runner; `formulateArgs` fails, for any command and any builder,
exactly when both options are non-empty. -/
theorem build_rejects_context_with_configuration (env : Env) (b : BuilderParams) (t : Trace)
    (hctx : b.Options.Context ≠ []) (hcfg : b.Options.Configuration ≠ []) :
    Build env b t = (some exclusiveOptionsError,
      t ++ [Event.updateEnvVars b.InstallConfigs.BinPath b.InstallConfigs.EtcPath]) ∧
    (∀ bin quiet args, Event.executeCommand bin quiet args ∉ ((Build env b t).2).drop t.length) ∧
    (∀ (b' : BuilderParams) (command : List Str),
      (∃ err, formulateArgs b' command = .error err) ↔
        (b'.Options.Context ≠ [] ∧ b'.Options.Configuration ≠ [])) := by
  have hbuild : Build env b t = (some exclusiveOptionsError,
      t ++ [Event.updateEnvVars b.InstallConfigs.BinPath b.InstallConfigs.EtcPath]) := by
    simp [Build, buildPrepare, listContexts, formulateArgs, hctx, hcfg, exclusiveOptionsError]
  refine ⟨hbuild, ?_, ?_⟩
  · intro bin quiet args
    rw [hbuild]
    simp
  · intro b' command
    by_cases h : b'.Options.Context ≠ [] ∧ b'.Options.Configuration ≠ []
    · simp [formulateArgs, h]
    · simp only [formulateArgs, if_neg h, iff_false, not_exists, h]
      intro err herr
      cases herr

/-- Witness for C1: a builder with both `Context` and `Configuration` set. -/
theorem build_rejects_context_with_configuration_witness :
    Build (sampleEnv "App.Debug+Board\n".data [])
        (sampleBuilder { sampleOptions with
          Context := "App.Debug+Board".data, Configuration := ".Debug+Board".data }) [] =
      (some exclusiveOptionsError, [Event.updateEnvVars "/opt/bin".data "/opt/etc".data]) :=
  (build_rejects_context_with_configuration (sampleEnv "App.Debug+Board\n".data [])
    (sampleBuilder { sampleOptions with
      Context := "App.Debug+Board".data, Configuration := ".Debug+Board".data }) []
    (by decide) (by decide)).1

/-! ## Selection of the contexts to build -/

/-- A successful `formulateArgs` means that `Context` and `Configuration` are not both set. -/
theorem formulateArgs_ok_not_both {b : BuilderParams} {command args : List Str}
    (h : formulateArgs b command = .ok args) :
    ¬ (b.Options.Context ≠ [] ∧ b.Options.Configuration ≠ []) := by
  intro hboth
  simp [formulateArgs, hboth] at h

/-- A successful `listContexts` means that `Context` and `Configuration` are not both set. -/
theorem listContexts_ok_not_both {env : Env} {b : BuilderParams} {quite ymlOrder : Bool}
    {t t' : Trace} {catalog : List Str}
    (h : listContexts env b quite ymlOrder t = (.ok catalog, t')) :
    ¬ (b.Options.Context ≠ [] ∧ b.Options.Configuration ≠ []) := by
  intro hboth
  simp [listContexts, formulateArgs, hboth] at h

/-- Every context returned by `utilsGetSelectedContexts` has the requested configuration
and comes from the catalog. -/
theorem utilsGetSelectedContexts_ok {allContexts sel : List Str} {configuration : Str}
    (h : utilsGetSelectedContexts allContexts configuration = .ok sel) :
    sel = allContexts.filter (fun c => decide (configurationOf c = some configuration)) := by
  unfold utilsGetSelectedContexts at h
  simp only at h
  split at h
  · cases h
  · cases h
    rfl

/-- C2: when the context listing returned `catalog` and the selection step of `Build`
succeeds with the selection `sel`, every selected context belongs to the catalog; with
`Context` set the selection is the single canonical (parsed and re-formatted) form of
`Context`; with neither `Context` nor `Configuration` set it is the whole catalog in its
order; with `Configuration` set it is the result of `GetSelectedContexts`, that is, the
catalog contexts whose configuration suffix equals `Configuration`, in catalog order. -/
theorem selection_within_catalog (env : Env) (b b' : BuilderParams) (t t' : Trace)
    (catalog sel : List Str)
    (hlist : listContexts env b true true t = (.ok catalog, t'))
    (hsel : selectContexts env b catalog = .ok (b', sel)) :
    (∀ c ∈ sel, c ∈ catalog) ∧
    (b.Options.Context ≠ [] →
      sel = [(env.createContext (env.parseContext b.Options.Context).1).1]) ∧
    (b.Options.Context = [] → b.Options.Configuration = [] → sel = catalog) ∧
    (b.Options.Configuration ≠ [] →
      utilsGetSelectedContexts catalog b.Options.Configuration = .ok sel ∧
      sel = catalog.filter
        (fun c => decide (configurationOf c = some b.Options.Configuration))) := by
  have hnot := listContexts_ok_not_both hlist
  by_cases hctx : b.Options.Context = []
  · by_cases hcfg : b.Options.Configuration = []
    · have hs : sel = catalog := by
        simp [selectContexts, hctx, hcfg] at hsel
        exact hsel.2.symm
      subst hs
      exact ⟨fun c hc => hc, fun h => absurd hctx h, fun _ _ => rfl, fun h => absurd hcfg h⟩
    · have hget : utilsGetSelectedContexts catalog b.Options.Configuration = .ok sel := by
        simp only [selectContexts, hctx, hcfg, ne_eq, not_true_eq_false, if_false] at hsel
        split at hsel
        · cases hsel
        · rename_i selected hselected
          cases hsel
          exact hselected
      have hfilter := utilsGetSelectedContexts_ok hget
      refine ⟨?_, fun h => absurd hctx h, fun _ h => absurd h hcfg, fun _ => ⟨hget, hfilter⟩⟩
      intro c hc
      rw [hfilter] at hc
      exact (List.mem_filter.mp hc).1
  · simp only [selectContexts, ne_eq, hctx, not_false_eq_true, if_true] at hsel
    have hcfg : b.Options.Configuration = [] := by
      by_contra hne
      exact hnot ⟨hctx, hne⟩
    unfold validateContext at hsel
    rcases hparse : env.parseContext b.Options.Context with ⟨item, perr⟩
    rw [hparse] at hsel
    cases perr with
    | some err => simp at hsel
    | none =>
      simp only at hsel
      rcases hcreate : env.createContext item with ⟨context, cerr⟩
      rw [hcreate] at hsel
      cases cerr with
      | some err => simp at hsel
      | none =>
        simp only at hsel
        by_cases hmem : utilsContains catalog context = true
        · simp only [hmem, Bool.not_true, Bool.false_eq_true, if_false] at hsel
          cases hsel
          refine ⟨?_, fun _ => ?_, fun h => absurd h hctx, fun h => absurd hcfg h⟩
          · intro c hc
            rw [List.mem_singleton] at hc
            subst hc
            simpa [utilsContains] using hmem
          · simp [hcreate]
        · simp [hmem] at hsel

/-- Witness for C2: selecting `App.Debug+Board` from a catalog of two contexts. -/
theorem selection_within_catalog_witness :
    (∀ c ∈ ["App.Debug+Board".data], c ∈ ["App.Debug+Board".data, "App.Release+Board".data]) ∧
    ["App.Debug+Board".data] =
      [(specCreateContext (specParseContext "App.Debug+Board".data).1).1] :=
  have h := selection_within_catalog
    (sampleEnv "App.Debug+Board\nApp.Release+Board\n".data [])
    (sampleBuilder { sampleOptions with Context := "App.Debug+Board".data })
    (sampleBuilder { sampleOptions with Context := "App.Debug+Board".data })
    [] [Event.executeCommand "/opt/bin/csolution".data true
          ["list".data, "contexts".data, "--solution=sol/MySolution.csolution.yml".data,
            "--context=App.Debug+Board".data, "--yml-order".data]]
    ["App.Debug+Board".data, "App.Release+Board".data] ["App.Debug+Board".data]
    (by rfl) (by rfl)
  ⟨h.1, h.2.1 (by decide)⟩

/-! ## Step 2 of `Build`: per-context processing -/

/-- The method `getCprjFilePath` reads the index document once and does nothing else. -/
theorem getCprjFilePath_trace (env : Env) (idxFile context : Str) (t : Trace) :
    (getCprjFilePath env idxFile context t).2 = t ++ [Event.parseCbuildIndexFile idxFile] := by
  unfold getCprjFilePath
  split
  · rfl
  · simp only
    split <;> rfl

/-- The events of one `processContext` call: the banner of the context, then at most one
read of the index document and at most one delegation to the per-project builder. -/
theorem processContext_events (env : Env) (b : BuilderParams) (context : Str) (t : Trace) :
    ∃ evs, (processContext env b context t).2 = t ++ evs ∧
      processedContexts evs = [context] ∧
      (∀ bin quiet args, Event.executeCommand bin quiet args ∉ evs) := by
  unfold processContext
  simp only
  split
  · exact ⟨[Event.processingContext context], rfl, rfl, by simp⟩
  · generalize hidx : filepathJoin _ = idxFile
    have htr := getCprjFilePath_trace env idxFile context (t ++ [Event.processingContext context])
    rcases hget : getCprjFilePath env idxFile context (t ++ [Event.processingContext context])
      with ⟨⟨cprjFile, err⟩, t'⟩
    rw [hget] at htr
    simp only at htr
    subst htr
    cases err with
    | some err =>
      exact ⟨[Event.processingContext context, Event.parseCbuildIndexFile idxFile],
        by simp, rfl, by simp⟩
    | none =>
      simp only [List.append_assoc, List.singleton_append]
      exact ⟨_, rfl, rfl, by simp⟩

/-- The loop of step 2 stops at the first context whose processing fails. -/
theorem processContexts_first_failure (env : Env) (b : BuilderParams) :
    ∀ (cs : List Str) (t : Trace) (k : Nat) (err : GoError), k < cs.length →
      (∀ i, i < k →
        (processContext env b (cs.getD i []) (traceAfter env b (cs.take i) t)).1 = none) →
      (processContext env b (cs.getD k []) (traceAfter env b (cs.take k) t)).1 = some err →
      (processContexts env b cs t).1 = some err ∧
      ∃ evs, (processContexts env b cs t).2 = t ++ evs ∧
        processedContexts evs = cs.take (k + 1) := by
  intro cs
  induction cs with
  | nil => intro t k err hk; simp at hk
  | cons c rest ih =>
    intro t k err hk hbefore hfail
    cases k with
    | zero =>
      simp only [List.getD_cons_zero, List.take_zero, traceAfter, processContexts] at hfail
      obtain ⟨evs, hevs, hproc, -⟩ := processContext_events env b c t
      rcases hpc : processContext env b c t with ⟨r, t'⟩
      rw [hpc] at hfail hevs
      simp only at hfail hevs
      subst hfail
      have hres : processContexts env b (c :: rest) t = (some err, t') := by
        simp only [processContexts, hpc]
      rw [hres]
      exact ⟨rfl, evs, hevs, by simpa using hproc⟩
    | succ k =>
      have h0 := hbefore 0 (Nat.succ_pos k)
      simp only [List.getD_cons_zero, List.take_zero, traceAfter, processContexts] at h0
      obtain ⟨evs, hevs, hproc, -⟩ := processContext_events env b c t
      rcases hpc : processContext env b c t with ⟨r, t'⟩
      rw [hpc] at h0 hevs
      simp only at h0 hevs
      subst h0
      have hshift : ∀ l : List Str, traceAfter env b (c :: l) t = traceAfter env b l t' := by
        intro l
        simp only [traceAfter, processContexts, hpc]
      have hk' : k < rest.length := by simpa using hk
      obtain ⟨herr, evs', hevs', hproc'⟩ := ih t' k err hk'
        (fun i hi => by
          have := hbefore (i + 1) (Nat.succ_lt_succ hi)
          simpa [hshift] using this)
        (by simpa [hshift] using hfail)
      have hres : processContexts env b (c :: rest) t = processContexts env b rest t' := by
        simp only [processContexts, hpc]
      rw [hres]
      refine ⟨herr, evs ++ evs', ?_, ?_⟩
      · rw [hevs', hevs, List.append_assoc]
      · simp only [processedContexts, List.filterMap_append] at hproc hproc' ⊢
        rw [hproc, hproc']
        rfl

/-- The loop of step 2 processes every context when no processing fails. -/
theorem processContexts_no_failure (env : Env) (b : BuilderParams) :
    ∀ (cs : List Str) (t : Trace),
      (∀ i, i < cs.length →
        (processContext env b (cs.getD i []) (traceAfter env b (cs.take i) t)).1 = none) →
      (processContexts env b cs t).1 = none ∧
      ∃ evs, (processContexts env b cs t).2 = t ++ evs ∧ processedContexts evs = cs := by
  intro cs
  induction cs with
  | nil => intro t _; exact ⟨rfl, [], by simp [processContexts], rfl⟩
  | cons c rest ih =>
    intro t hall
    have h0 := hall 0 (by simp)
    simp only [List.getD_cons_zero, List.take_zero, traceAfter, processContexts] at h0
    obtain ⟨evs, hevs, hproc, -⟩ := processContext_events env b c t
    rcases hpc : processContext env b c t with ⟨r, t'⟩
    rw [hpc] at h0 hevs
    simp only at h0 hevs
    subst h0
    have hshift : ∀ l : List Str, traceAfter env b (c :: l) t = traceAfter env b l t' := by
      intro l
      simp only [traceAfter, processContexts, hpc]
    obtain ⟨herr, evs', hevs', hproc'⟩ := ih t'
      (fun i hi => by
        have := hall (i + 1) (by simpa using hi)
        simpa [hshift] using this)
    have hres : processContexts env b (c :: rest) t = processContexts env b rest t' := by
      simp only [processContexts, hpc]
    rw [hres]
    refine ⟨herr, evs ++ evs', ?_, ?_⟩
    · rw [hevs', hevs, List.append_assoc]
    · simp only [processedContexts, List.filterMap_append] at hproc hproc' ⊢
      rw [hproc, hproc']
      rfl

/-- C3: when `Build` reaches step 2 with the selection `cs`, the contexts are processed in
selection order. If the processing of the context at position `k` is the first to fail, with
error `err`, then `Build` returns `err` and exactly the contexts at positions `0..k` were
processed, so none of the later ones; if no processing fails, `Build` returns no error and
the processed contexts are exactly `cs`, each once and in order. -/
theorem build_processes_in_order_fail_fast (env : Env) (b b' : BuilderParams) (t t1 t2 : Trace)
    (cs args : List Str) (out : Str)
    (hprep : buildPrepare env b t = (.ok (b', cs, args), t1))
    (hconv : runCSolution env b' args false t1 = (.ok out, t2)) :
    (∀ (k : Nat) (err : GoError), k < cs.length →
      (∀ i, i < k →
        (processContext env b' (cs.getD i []) (traceAfter env b' (cs.take i) t2)).1 = none) →
      (processContext env b' (cs.getD k []) (traceAfter env b' (cs.take k) t2)).1 = some err →
      (Build env b t).1 = some err ∧
      processedContexts (((Build env b t).2).drop t2.length) = cs.take (k + 1)) ∧
    ((∀ i, i < cs.length →
        (processContext env b' (cs.getD i []) (traceAfter env b' (cs.take i) t2)).1 = none) →
      (Build env b t).1 = none ∧
      processedContexts (((Build env b t).2).drop t2.length) = cs) := by
  have hbuild : Build env b t = processContexts env b' cs t2 := by
    simp only [Build, hprep, hconv]
  rw [hbuild]
  constructor
  · intro k err hk hbefore hfail
    obtain ⟨herr, evs, hevs, hproc⟩ :=
      processContexts_first_failure env b' cs t2 k err hk hbefore hfail
    refine ⟨herr, ?_⟩
    rw [hevs, List.drop_left]
    exact hproc
  · intro hall
    obtain ⟨herr, evs, hevs, hproc⟩ := processContexts_no_failure env b' cs t2 hall
    refine ⟨herr, ?_⟩
    rw [hevs, List.drop_left]
    exact hproc

/-- Witness for C3: of three selected contexts the second fails, the third is not started. -/
theorem build_processes_in_order_fail_fast_witness :
    (Build threeContextsEnv (sampleBuilder sampleOptions) []).1 =
        some "cprj file path not found".data ∧
      processedContexts (((Build threeContextsEnv (sampleBuilder sampleOptions) []).2).drop 3) =
        ["A.Debug+Board".data, "B.Debug+Board".data] :=
  (build_processes_in_order_fail_fast threeContextsEnv (sampleBuilder sampleOptions)
    (sampleBuilder sampleOptions) []
    [Event.updateEnvVars "/opt/bin".data "/opt/etc".data,
      Event.executeCommand "/opt/bin/csolution".data true
        ["list".data, "contexts".data, "--solution=sol/MySolution.csolution.yml".data,
          "--yml-order".data]]
    [Event.updateEnvVars "/opt/bin".data "/opt/etc".data,
      Event.executeCommand "/opt/bin/csolution".data true
        ["list".data, "contexts".data, "--solution=sol/MySolution.csolution.yml".data,
          "--yml-order".data],
      Event.executeCommand "/opt/bin/csolution".data false
        ["convert".data, "--solution=sol/MySolution.csolution.yml".data]]
    ["A.Debug+Board".data, "B.Debug+Board".data, "C.Debug+Board".data]
    ["convert".data, "--solution=sol/MySolution.csolution.yml".data]
    "A.Debug+Board\nB.Debug+Board\nC.Debug+Board\n".data
    (by rfl) (by rfl)).1 1 "cprj file path not found".data (by decide)
    (by intro i hi; interval_cases i; rfl) (by rfl)

/-! ## Configuration extraction -/

/-- The function `stringsContains` decides the infix relation. -/
theorem stringsContains_iff (s substr : Str) :
    stringsContains s substr = true ↔ substr <:+: s := by
  induction s with
  | nil => simp [stringsContains, List.isEmpty_iff]
  | cons c s ih =>
    simp only [stringsContains, Bool.or_eq_true, ih, List.isPrefixOf_iff_prefix,
      List.infix_cons_iff]

/-- Characterisation of `indexFrom`: `-1` when the character is absent, otherwise the
offset plus the number of characters before its first occurrence. -/
theorem indexFrom_spec (c : Char) :
    ∀ (s : Str) (i : Nat),
      (c ∉ s → indexFrom c s i = -1) ∧
      (c ∈ s → ∃ n : Nat, indexFrom c s i = ((i + n : Nat) : Int) ∧
        s.drop n = s.dropWhile (fun x => x != c)) := by
  intro s
  induction s with
  | nil => intro i; simp [indexFrom]
  | cons x s ih =>
    intro i
    by_cases hx : x = c
    · subst hx
      refine ⟨fun h => absurd (List.mem_cons_self _ _) h, fun _ => ⟨0, ?_, ?_⟩⟩
      · simp [indexFrom]
      · simp [List.dropWhile_cons]
    · obtain ⟨hno, hyes⟩ := ih (i + 1)
      constructor
      · intro h
        have hs : c ∉ s := fun hm => h (List.mem_cons_of_mem _ hm)
        simp only [indexFrom, if_neg hx]
        exact hno hs
      · intro h
        have hs : c ∈ s := by
          rcases List.mem_cons.mp h with h | h
          · exact absurd h.symm hx
          · exact h
        obtain ⟨n, hn, hdrop⟩ := hyes hs
        refine ⟨n + 1, ?_, ?_⟩
        · simp only [indexFrom, if_neg hx, hn]
          congr 1
          omega
        · simp only [List.drop_succ_cons, hdrop, List.dropWhile_cons]
          simp [hx]

/-- The value of `stringsIndex` is `-1` exactly when the character does not occur. -/
theorem stringsIndex_eq_neg_one_iff (s : Str) (c : Char) :
    stringsIndex s c = -1 ↔ c ∉ s := by
  obtain ⟨hno, hyes⟩ := indexFrom_spec c s 0
  constructor
  · intro h hmem
    obtain ⟨n, hn, -⟩ := hyes hmem
    unfold stringsIndex at h
    rw [hn] at h
    omega
  · exact hno

/-- The slice `s[stringsIndex s c:]` starts at the first occurrence of the character. -/
theorem drop_stringsIndex (s : Str) (c : Char) (h : c ∈ s) :
    s.drop (stringsIndex s c).toNat = s.dropWhile (fun x => x != c) := by
  obtain ⟨n, hn, hdrop⟩ := (indexFrom_spec c s 0).2 h
  unfold stringsIndex
  rw [hn]
  simpa using hdrop

/-- The loop of `listConfigurations` appends, in order, the candidate configurations. -/
theorem configurationsLoop_eq (filter : Str) :
    ∀ (contexts configurations : List Str),
      configurationsLoop filter contexts configurations =
        (candidateConfigurations contexts filter).foldl utilsAppendUnique configurations := by
  intro contexts
  induction contexts with
  | nil => intro configurations; rfl
  | cons context rest ih =>
    intro configurations
    unfold configurationsLoop
    simp only [stringsIndex_eq_neg_one_iff, ne_eq]
    by_cases hdot : '.' ∈ context
    · have hcfg : configurationOf context = some (context.dropWhile (fun x => x != '.')) := by
        simp [configurationOf, hdot]
      simp only [hdot, not_true_eq_false, false_and, if_false, not_false_eq_true, if_true,
        drop_stringsIndex context '.' hdot]
      by_cases hf : filter = []
      · subst hf
        simp [ih, candidateConfigurations, hcfg]
      · by_cases hc : stringsContains (context.dropWhile (fun x => x != '.')) filter = true
        · have hin := (stringsContains_iff _ _).mp hc
          simp [ih, candidateConfigurations, hcfg, hf, hc, hin]
        · have hin : ¬ filter <:+: context.dropWhile (fun x => x != '.') :=
            fun h => hc ((stringsContains_iff _ _).mpr h)
          simp [ih, candidateConfigurations, hcfg, hf, hc, hin]
    · by_cases hplus : '+' ∈ context
      · have hcfg : configurationOf context = some (context.dropWhile (fun x => x != '+')) := by
          simp [configurationOf, hdot, hplus]
        simp only [hdot, hplus, not_true_eq_false, not_false_eq_true, and_false, if_false,
          drop_stringsIndex context '+' hplus]
        by_cases hf : filter = []
        · subst hf
          simp [ih, candidateConfigurations, hcfg]
        · by_cases hc : stringsContains (context.dropWhile (fun x => x != '+')) filter = true
          · have hin := (stringsContains_iff _ _).mp hc
            simp [ih, candidateConfigurations, hcfg, hf, hc, hin]
          · have hin : ¬ filter <:+: context.dropWhile (fun x => x != '+') :=
              fun h => hc ((stringsContains_iff _ _).mpr h)
            simp [ih, candidateConfigurations, hcfg, hf, hc, hin]
      · have hcfg : configurationOf context = none := by
          simp [configurationOf, hdot, hplus]
        simp [hdot, hplus, ih, candidateConfigurations, hcfg]

/-- Removing repeated entries commutes with filtering. -/
theorem dedupFirst_filter (p : Str → Bool) :
    ∀ l : List Str, dedupFirst (l.filter p) = (dedupFirst l).filter p := by
  intro l
  induction l with
  | nil => rfl
  | cons x xs ih =>
    by_cases hp : p x = true
    · simp only [List.filter_cons_of_pos hp, dedupFirst, ih, List.filter_filter]
      congr 1
      apply List.filter_congr
      intro y _
      exact Bool.and_comm _ _
    · simp only [List.filter_cons_of_neg hp, dedupFirst, ih, List.filter_filter]
      apply List.filter_congr
      intro y _
      by_cases hy : p y = true
      · have hne : y ≠ x := fun h => hp (h ▸ hy)
        simp [hy, hne]
      · simp [hy]

/-- Entries of `dedupFirst l` are entries of `l`. -/
theorem mem_dedupFirst {x : Str} : ∀ {l : List Str}, x ∈ dedupFirst l ↔ x ∈ l := by
  intro l
  induction l with
  | nil => simp [dedupFirst]
  | cons y ys ih =>
    simp only [dedupFirst, List.mem_cons, List.mem_filter, ih, decide_eq_true_eq]
    constructor
    · rintro (h | ⟨h, -⟩)
      · exact Or.inl h
      · exact Or.inr h
    · intro h
      by_cases hxy : x = y
      · exact Or.inl hxy
      · rcases h with h | h
        · exact Or.inl h
        · exact Or.inr ⟨h, hxy⟩

/-- The list `dedupFirst l` has no repeated entry. -/
theorem nodup_dedupFirst : ∀ l : List Str, (dedupFirst l).Nodup := by
  intro l
  induction l with
  | nil => exact List.nodup_nil
  | cons x xs ih =>
    simp only [dedupFirst, List.nodup_cons, List.mem_filter, decide_eq_true_eq]
    exact ⟨fun h => h.2 rfl, ih.filter _⟩

/-- Appending the entries of `l` one by one, each only if not yet present, appends the
first occurrences of the entries that are new. -/
theorem foldl_appendUnique :
    ∀ (l acc : List Str),
      l.foldl utilsAppendUnique acc =
        acc ++ dedupFirst (l.filter (fun x => decide (x ∉ acc))) := by
  intro l
  induction l with
  | nil => intro acc; simp [dedupFirst]
  | cons x xs ih =>
    intro acc
    by_cases hx : x ∈ acc
    · simp [utilsAppendUnique, hx, ih]
    · simp only [List.foldl_cons, utilsAppendUnique, if_neg hx, ih, List.append_assoc,
        List.singleton_append]
      have hfx : List.filter (fun y => decide (y ∉ acc)) (x :: xs) =
          x :: List.filter (fun y => decide (y ∉ acc)) xs := by
        simp [hx]
      rw [hfx, dedupFirst, ← dedupFirst_filter, List.filter_filter]
      congr 3
      apply List.filter_congr
      intro y _
      simp only [List.mem_append, List.mem_singleton, not_or, Bool.decide_and,
        Bool.and_comm]

/-- The loop of `listConfigurations`, started with no configuration, yields the first
occurrences of the candidate configurations. -/
theorem configurationsLoop_nil (filter : Str) (contexts : List Str) :
    configurationsLoop filter contexts [] =
      dedupFirst (candidateConfigurations contexts filter) := by
  rw [configurationsLoop_eq, foldl_appendUnique]
  simp

/-- The result of a successful `listConfigurations` in terms of the catalog listed. -/
theorem listConfigurations_result {env : Env} {b : BuilderParams} {t t' : Trace}
    {catalog : List Str}
    (hlist : listContexts env { b with Options := { b.Options with Filter := [] } }
      true false t = (.ok catalog, t')) :
    listConfigurations env b t =
      if (configurationsLoop b.Options.Filter catalog []).length = 0 ∧ b.Options.Filter ≠ []
      then (.error "processing configurations list failed".data, t')
      else (.ok (configurationsLoop b.Options.Filter catalog []), t') := by
  simp only [listConfigurations, hlist]

/-- The words of the specification describe the list of first occurrences. -/
theorem specConfigurations_eq (catalog : List Str) (filter : Str) :
    specConfigurations catalog filter =
      dedupFirst (candidateConfigurations catalog filter) := by
  have h := foldl_appendUnique (candidateConfigurations catalog filter) []
  simp only [List.not_mem_nil, not_false_eq_true, decide_True, List.filter_true,
    List.nil_append] at h
  rw [← h]
  rfl

/-- There is no candidate exactly when no configuration suffix passes the filter. -/
theorem candidateConfigurations_eq_nil_iff (catalog : List Str) (filter : Str) :
    candidateConfigurations catalog filter = [] ↔
      ∀ c ∈ catalog, ∀ config, configurationOf c = some config →
        ¬ (filter = [] ∨ filter <:+: config) := by
  simp only [candidateConfigurations, List.filter_eq_nil_iff, List.mem_filterMap,
    decide_eq_true_eq]
  constructor
  · intro h c hc config hcfg
    exact h config ⟨c, hc, hcfg⟩
  · rintro h config ⟨c, hc, hcfg⟩
    exact h c hc config hcfg

/-- The list of first occurrences is empty exactly when the list is. -/
theorem dedupFirst_eq_nil_iff (l : List Str) : dedupFirst l = [] ↔ l = [] := by
  cases l with
  | nil => simp [dedupFirst]
  | cons x xs => simp [dedupFirst]

/-- C4: when the context listing returned `catalog`, a successful `listConfigurations`
returns the sequence described by the specification: the catalog is gone through in order,
contexts without `.` and `+` are skipped, the suffix from the first `.` (else the first `+`)
is taken, kept only if it contains a non-empty filter, and appended only if not yet in the
result. The result therefore has no duplicates, is the list of first occurrences of the
candidate suffixes, and is the same for every run over the same catalog and filter. -/
theorem listConfigurations_sequence (env : Env) (b : BuilderParams) (t t' t'' : Trace)
    (catalog result : List Str)
    (hlist : listContexts env { b with Options := { b.Options with Filter := [] } }
      true false t = (.ok catalog, t'))
    (hok : listConfigurations env b t = (.ok result, t'')) :
    result = specConfigurations catalog b.Options.Filter ∧
    result = dedupFirst (candidateConfigurations catalog b.Options.Filter) ∧
    result.Nodup ∧
    (∀ (env2 : Env) (b2 : BuilderParams) (u u' u'' : Trace) (result2 : List Str),
      b2.Options.Filter = b.Options.Filter →
      listContexts env2 { b2 with Options := { b2.Options with Filter := [] } }
        true false u = (.ok catalog, u') →
      listConfigurations env2 b2 u = (.ok result2, u'') → result2 = result) := by
  have key : ∀ (env2 : Env) (b2 : BuilderParams) (u u' u'' : Trace) (result2 : List Str),
      listContexts env2 { b2 with Options := { b2.Options with Filter := [] } }
        true false u = (.ok catalog, u') →
      listConfigurations env2 b2 u = (.ok result2, u'') →
      result2 = dedupFirst (candidateConfigurations catalog b2.Options.Filter) := by
    intro env2 b2 u u' u'' result2 h1 h2
    rw [listConfigurations_result h1] at h2
    split at h2
    · cases h2
    · cases h2
      exact configurationsLoop_nil _ _
  have hres := key env b t t' t'' result hlist hok
  refine ⟨by rw [specConfigurations_eq]; exact hres, hres, ?_, ?_⟩
  · rw [hres]
    exact nodup_dedupFirst _
  · intro env2 b2 u u' u'' result2 hfilter h1 h2
    rw [hres, ← hfilter]
    exact key env2 b2 u u' u'' result2 h1 h2

/-- Witness for C4: the catalog `App.Debug+Board`, `App.Release+Board` with the filter
`Debug` gives the single configuration `.Debug+Board`. -/
theorem listConfigurations_sequence_witness :
    (listConfigurations (sampleEnv "App.Debug+Board\nApp.Release+Board\n".data [])
        (sampleBuilder { sampleOptions with Filter := "Debug".data }) []).1 =
      .ok [".Debug+Board".data] ∧
    [".Debug+Board".data] =
      specConfigurations ["App.Debug+Board".data, "App.Release+Board".data] "Debug".data :=
  ⟨by rfl,
    (listConfigurations_sequence (sampleEnv "App.Debug+Board\nApp.Release+Board\n".data [])
      (sampleBuilder { sampleOptions with Filter := "Debug".data }) []
      [Event.executeCommand "/opt/bin/csolution".data true
        ["list".data, "contexts".data, "--solution=sol/MySolution.csolution.yml".data]]
      [Event.executeCommand "/opt/bin/csolution".data true
        ["list".data, "contexts".data, "--solution=sol/MySolution.csolution.yml".data]]
      ["App.Debug+Board".data, "App.Release+Board".data] [".Debug+Board".data]
      (by rfl) (by rfl)).1⟩

/-- C5: when the context listing succeeds with `catalog`, `listConfigurations` fails
exactly when the filter is non-empty and no configuration suffix of the catalog contains
it; with an empty filter it succeeds for every catalog, also with an empty result, as for a
catalog whose contexts all lack `.` and `+`. -/
theorem listConfigurations_fails_iff (env : Env) (b : BuilderParams) (t t' : Trace)
    (catalog : List Str)
    (hlist : listContexts env { b with Options := { b.Options with Filter := [] } }
      true false t = (.ok catalog, t')) :
    ((∃ err, (listConfigurations env b t).1 = .error err) ↔
      (b.Options.Filter ≠ [] ∧
        ∀ c ∈ catalog, ∀ config, configurationOf c = some config →
          ¬ b.Options.Filter <:+: config)) ∧
    (b.Options.Filter = [] →
      (listConfigurations env b t).1 = .ok (specConfigurations catalog [])) ∧
    (b.Options.Filter = [] → (∀ c ∈ catalog, '.' ∉ c ∧ '+' ∉ c) →
      (listConfigurations env b t).1 = .ok []) := by
  have hlen : (configurationsLoop b.Options.Filter catalog []).length = 0 ↔
      candidateConfigurations catalog b.Options.Filter = [] := by
    rw [configurationsLoop_nil, List.length_eq_zero, dedupFirst_eq_nil_iff]
  rw [listConfigurations_result hlist]
  refine ⟨?_, ?_, ?_⟩
  · constructor
    · rintro ⟨err, herr⟩
      split at herr
      · rename_i hcond
        refine ⟨hcond.2, ?_⟩
        intro c hc config hcfg hin
        exact (candidateConfigurations_eq_nil_iff _ _).mp (hlen.mp hcond.1) c hc config hcfg
          (Or.inr hin)
      · cases herr
    · rintro ⟨hf, hnone⟩
      have hcond : (configurationsLoop b.Options.Filter catalog []).length = 0 ∧
          b.Options.Filter ≠ [] := by
        refine ⟨hlen.mpr ((candidateConfigurations_eq_nil_iff _ _).mpr ?_), hf⟩
        intro c hc config hcfg hor
        rcases hor with h | h
        · exact hf h
        · exact hnone c hc config hcfg h
      rw [if_pos hcond]
      exact ⟨_, rfl⟩
  · intro hf
    have hcond : ¬ ((configurationsLoop b.Options.Filter catalog []).length = 0 ∧
        b.Options.Filter ≠ []) := fun h => h.2 hf
    rw [if_neg hcond, configurationsLoop_nil, specConfigurations_eq, hf]
  · intro hf hall
    have hcond : ¬ ((configurationsLoop b.Options.Filter catalog []).length = 0 ∧
        b.Options.Filter ≠ []) := fun h => h.2 hf
    rw [if_neg hcond, configurationsLoop_nil]
    have hnil : candidateConfigurations catalog b.Options.Filter = [] := by
      rw [candidateConfigurations_eq_nil_iff]
      intro c hc config hcfg
      have := hall c hc
      simp [configurationOf, this.1, this.2] at hcfg
    rw [hnil]
    rfl

/-- Witness for C5: with the filter `Test` no configuration of the catalog
`App.Debug+Board`, `App.Release+Board` is kept and the call fails; without `.` and `+`
in the catalog and without a filter the call succeeds with an empty result. -/
theorem listConfigurations_fails_iff_witness :
    (listConfigurations (sampleEnv "App.Debug+Board\nApp.Release+Board\n".data [])
        (sampleBuilder { sampleOptions with Filter := "Test".data }) []).1 =
      .error "processing configurations list failed".data ∧
    (listConfigurations (sampleEnv "App\nLib\n".data []) (sampleBuilder sampleOptions) []).1 =
      .ok [] :=
  ⟨by rfl,
    (listConfigurations_fails_iff (sampleEnv "App\nLib\n".data []) (sampleBuilder sampleOptions)
      []
      [Event.executeCommand "/opt/bin/csolution".data true
        ["list".data, "contexts".data, "--solution=sol/MySolution.csolution.yml".data]]
      ["App".data, "Lib".data] (by rfl)).2.2 (by rfl) (by decide)⟩

/-! ## The conversion step of `Build` -/

/-- The arguments formulated for a command start with the first word of the command. -/
theorem formulateArgs_head {b : BuilderParams} {word : Str} {command args : List Str}
    (h : formulateArgs b (word :: command) = .ok args) : args.head? = some word := by
  unfold formulateArgs at h
  split at h
  · cases h
  · cases h
    simp

/-- The method `runCSolution` either fails on the lookup of the binary, without any
interaction, or hands exactly the given arguments to the runner. -/
theorem runCSolution_cases (env : Env) (b : BuilderParams) (args : List Str) (quite : Bool)
    (t : Trace) :
    (∃ err, (getCSolutionPath env b t).2 = some err ∧
      runCSolution env b args quite t = (.error err, t)) ∨
    ((getCSolutionPath env b t).2 = none ∧
      runCSolution env b args quite t =
        (env.executeCommand t (csolutionBinOf b) quite args,
          t ++ [Event.executeCommand (csolutionBinOf b) quite args])) := by
  unfold runCSolution getCSolutionPath csolutionBinOf
  simp only
  cases (env.stat t (filepathJoin
      [b.InstallConfigs.BinPath, "csolution".data ++ b.InstallConfigs.BinExtn])).err with
  | some err => exact Or.inl ⟨err, rfl, rfl⟩
  | none => exact Or.inr ⟨rfl, rfl⟩

/-- The events of `runCSolution` for arguments that do not start with `convert`. -/
theorem runCSolution_preparation (env : Env) (b : BuilderParams) (args : List Str)
    (quite : Bool) (t : Trace) (hargs : args.head? ≠ some "convert".data) :
    ∃ evs, (runCSolution env b args quite t).2 = t ++ evs ∧
      ∀ e ∈ evs, e.isPreparation = true := by
  rcases runCSolution_cases env b args quite t with ⟨err, -, h⟩ | ⟨-, h⟩
  · exact ⟨[], by simp [h], by simp⟩
  · refine ⟨_, by rw [h], ?_⟩
    intro e he
    rw [List.mem_singleton] at he
    subst he
    simp [Event.isPreparation, Event.isConvert, Event.processed?, hargs]

/-- The events of the loop of `installMissingPacks` are pack installations. -/
theorem installPacks_preparation (env : Env) (b : BuilderParams) :
    ∀ (packs : List Str) (t : Trace),
      ∃ evs, (installPacks env b packs t).2 = t ++ evs ∧
        ∀ e ∈ evs, e.isPreparation = true := by
  intro packs
  induction packs with
  | nil => intro t; exact ⟨[], by simp [installPacks], by simp⟩
  | cons pack rest ih =>
    intro t
    unfold installPacks
    simp only
    split
    · exact ih t
    · have hev : ∀ bin : Str, (Event.executeCommand bin false
          ["pack".data, "add".data, removeSpaces pack, "--force-reinstall".data,
            "--agree-embedded-license".data]).isPreparation = true := by
        intro bin
        simp [Event.isPreparation, Event.isConvert, Event.processed?]
      split
      · exact ⟨[], by simp, by simp⟩
      · split
        · refine ⟨_, rfl, ?_⟩
          intro e he
          rw [List.mem_singleton] at he
          subst he
          exact hev _
        · obtain ⟨evs, hevs, hprep⟩ := ih (t ++ [Event.executeCommand
            (filepathJoin [b.InstallConfigs.BinPath, "cpackget".data ++ b.InstallConfigs.BinExtn])
            false ["pack".data, "add".data, removeSpaces pack, "--force-reinstall".data,
              "--agree-embedded-license".data]])
          refine ⟨Event.executeCommand
            (filepathJoin [b.InstallConfigs.BinPath, "cpackget".data ++ b.InstallConfigs.BinExtn])
            false ["pack".data, "add".data, removeSpaces pack, "--force-reinstall".data,
              "--agree-embedded-license".data] :: evs, ?_, ?_⟩
          · rw [hevs, List.append_assoc]
            rfl
          · intro e he
            rcases List.mem_cons.mp he with h | h
            · subst h
              exact hev _
            · exact hprep e h

/-- The events of `installMissingPacks` are the listing of the missing packs and pack
installations. -/
theorem installMissingPacks_preparation (env : Env) (b : BuilderParams) (t : Trace) :
    ∃ evs, (installMissingPacks env b t).2 = t ++ evs ∧
      ∀ e ∈ evs, e.isPreparation = true := by
  unfold installMissingPacks
  split
  · exact ⟨[], by simp, by simp⟩
  · rename_i args hargs
    have hhead : (args ++ ["-m".data]).head? ≠ some "convert".data := by
      have := formulateArgs_head hargs
      cases args with
      | nil => simp at this
      | cons a as =>
        simp only [List.head?_cons, Option.some.injEq] at this
        subst this
        simp
    obtain ⟨evs, hevs, hprep⟩ := runCSolution_preparation env b _ false t hhead
    rcases hrun : runCSolution env b (args ++ ["-m".data]) false t with ⟨r, t1⟩
    rw [hrun] at hevs
    simp only at hevs
    subst hevs
    cases r with
    | error err => exact ⟨evs, rfl, hprep⟩
    | ok output =>
      simp only
      obtain ⟨evs', hevs', hprep'⟩ :=
        installPacks_preparation env b (stringsSplit '\n' (replaceCRLF (trimSpace output)))
          (t ++ evs)
      refine ⟨evs ++ evs', by rw [hevs', List.append_assoc], ?_⟩
      intro e he
      rcases List.mem_append.mp he with h | h
      · exact hprep e h
      · exact hprep' e h

/-- The events of `listContexts`: at most the invocation of `list contexts`. -/
theorem listContexts_preparation (env : Env) (b : BuilderParams) (quite ymlOrder : Bool)
    (t : Trace) :
    ∃ evs, (listContexts env b quite ymlOrder t).2 = t ++ evs ∧
      ∀ e ∈ evs, e.isPreparation = true := by
  unfold listContexts
  split
  · exact ⟨[], by simp, by simp⟩
  · rename_i args hargs
    have hhead : (if ymlOrder then args ++ ["--yml-order".data] else args).head? ≠
        some "convert".data := by
      have := formulateArgs_head hargs
      cases args with
      | nil => simp at this
      | cons a as =>
        simp only [List.head?_cons, Option.some.injEq] at this
        subst this
        cases ymlOrder <;> simp
    obtain ⟨evs, hevs, hprep⟩ := runCSolution_preparation env b _ quite t hhead
    rcases hrun : runCSolution env b (if ymlOrder then args ++ ["--yml-order".data] else args)
      quite t with ⟨r, t1⟩
    rw [hrun] at hevs
    simp only at hevs
    subst hevs
    cases r with
    | error err => exact ⟨evs, rfl, hprep⟩
    | ok output => exact ⟨evs, rfl, hprep⟩

/-- A successful `listContexts` found the binary of the external compiler. -/
theorem listContexts_ok_found {env : Env} {b : BuilderParams} {quite ymlOrder : Bool}
    {t t' : Trace} {catalog : List Str}
    (h : listContexts env b quite ymlOrder t = (.ok catalog, t')) :
    (getCSolutionPath env b t).2 = none := by
  unfold listContexts at h
  split at h
  · cases h
  · rename_i args _
    rcases runCSolution_cases env b (if ymlOrder then args ++ ["--yml-order".data] else args)
      quite t with ⟨err, -, hrun⟩ | ⟨hfound, -⟩
    · rw [hrun] at h
      cases h
    · exact hfound

/-- The selection step changes at most the `Context` option of the builder. -/
theorem selectContexts_installConfigs {env : Env} {b b' : BuilderParams}
    {allContexts sel : List Str} (h : selectContexts env b allContexts = .ok (b', sel)) :
    b'.InstallConfigs = b.InstallConfigs := by
  unfold selectContexts at h
  split at h
  · split at h
    · cases h
    · cases h
      rfl
  · split at h
    · cases h
      rfl
    · split at h
      · cases h
      · cases h
        rfl

/-- The events of the preparation phase of `Build` contain neither a conversion nor the
start of a context. -/
theorem buildPrepare_preparation (env : Env) (b : BuilderParams) (t : Trace) :
    ∃ evs, (buildPrepare env b t).2 = t ++ evs ∧ ∀ e ∈ evs, e.isPreparation = true := by
  unfold buildPrepare
  simp only
  have hsetup : (Event.updateEnvVars b.InstallConfigs.BinPath
      b.InstallConfigs.EtcPath).isPreparation = true := rfl
  obtain ⟨evs, hevs, hprep⟩ := listContexts_preparation env b true true
    (t ++ [Event.updateEnvVars b.InstallConfigs.BinPath b.InstallConfigs.EtcPath])
  rcases hlist : listContexts env b true true
    (t ++ [Event.updateEnvVars b.InstallConfigs.BinPath b.InstallConfigs.EtcPath]) with ⟨r, t1⟩
  rw [hlist] at hevs
  simp only at hevs
  subst hevs
  have hbase : ∃ evs1, t ++ [Event.updateEnvVars b.InstallConfigs.BinPath
      b.InstallConfigs.EtcPath] ++ evs = t ++ evs1 ∧ ∀ e ∈ evs1, e.isPreparation = true := by
    refine ⟨Event.updateEnvVars b.InstallConfigs.BinPath b.InstallConfigs.EtcPath :: evs,
      by simp, ?_⟩
    intro e he
    rcases List.mem_cons.mp he with h | h
    · subst h
      exact hsetup
    · exact hprep e h
  cases r with
  | error err => exact hbase
  | ok allContexts =>
    simp only
    split
    · exact hbase
    · rename_i b' selectedContexts _
      split
      · exact hbase
      · split
        · obtain ⟨evs2, hevs2, hprep2⟩ := installMissingPacks_preparation env b'
            (t ++ [Event.updateEnvVars b.InstallConfigs.BinPath b.InstallConfigs.EtcPath] ++ evs)
          obtain ⟨evs1, hevs1, hprep1⟩ := hbase
          have hall : ∃ evs3, (installMissingPacks env b' (t ++ [Event.updateEnvVars
              b.InstallConfigs.BinPath b.InstallConfigs.EtcPath] ++ evs)).2 = t ++ evs3 ∧
              ∀ e ∈ evs3, e.isPreparation = true := by
            refine ⟨evs1 ++ evs2, by rw [hevs2, hevs1, List.append_assoc], ?_⟩
            intro e he
            rcases List.mem_append.mp he with h | h
            · exact hprep1 e h
            · exact hprep2 e h
          split
          · rename_i heq
            rw [heq] at hall
            exact hall
          · rename_i heq
            rw [heq] at hall
            exact hall
        · exact hbase

/-- A successful preparation phase formulated the arguments of the conversion. -/
theorem buildPrepare_ok {env : Env} {b b' : BuilderParams} {t t1 : Trace}
    {cs args : List Str} (h : buildPrepare env b t = (.ok (b', cs, args), t1)) :
    formulateArgs b' ["convert".data] = .ok args := by
  unfold buildPrepare at h
  simp only at h
  rcases hlist : listContexts env b true true
    (t ++ [Event.updateEnvVars b.InstallConfigs.BinPath b.InstallConfigs.EtcPath]) with ⟨r, t0⟩
  rw [hlist] at h
  cases r with
  | error err => cases h
  | ok allContexts =>
    simp only at h
    split at h
    · cases h
    · rename_i b2 selectedContexts hsel
      split at h
      · cases h
      · rename_i args2 hargs
        split at h
        · split at h
          · cases h
          · cases h
            exact hargs
        · cases h
          exact hargs

/-- The loop of step 2 never hands a command to the runner itself. -/
theorem processContexts_events (env : Env) (b : BuilderParams) :
    ∀ (cs : List Str) (t : Trace),
      ∃ evs, (processContexts env b cs t).2 = t ++ evs ∧
        (∀ bin quiet args, Event.executeCommand bin quiet args ∉ evs) ∧
        (cs = [] → evs = []) := by
  intro cs
  induction cs with
  | nil => intro t; exact ⟨[], by simp [processContexts], by simp, fun _ => rfl⟩
  | cons c rest ih =>
    intro t
    obtain ⟨evs, hevs, -, hno⟩ := processContext_events env b c t
    rcases hpc : processContext env b c t with ⟨r, t'⟩
    rw [hpc] at hevs
    simp only at hevs
    subst hevs
    cases r with
    | some err =>
      refine ⟨evs, by simp only [processContexts, hpc], hno, fun h => by cases h⟩
    | none =>
      obtain ⟨evs', hevs', hno', -⟩ := ih (t ++ evs)
      refine ⟨evs ++ evs', ?_, ?_, fun h => by cases h⟩
      · simp only [processContexts, hpc]
        rw [hevs', List.append_assoc]
      · intro bin quiet args hmem
        rcases List.mem_append.mp hmem with h | h
        · exact hno bin quiet args h
        · exact hno' bin quiet args h

/-- Preparation events do not count as conversions. -/
theorem countP_isConvert_preparation {evs : Trace} (h : ∀ e ∈ evs, e.isPreparation = true) :
    evs.countP Event.isConvert = 0 := by
  rw [List.countP_eq_zero]
  intro e he
  have := h e he
  simp only [Event.isPreparation, Bool.and_eq_true, Bool.not_eq_true'] at this
  simp [this.1]

/-- Preparation events do not start a context. -/
theorem processedContexts_preparation {evs : Trace} (h : ∀ e ∈ evs, e.isPreparation = true) :
    processedContexts evs = [] := by
  unfold processedContexts
  rw [List.filterMap_eq_nil_iff]
  intro e he
  have := h e he
  simp only [Event.isPreparation, Bool.and_eq_true, Option.isNone_iff_eq_none] at this
  exact this.2

/-- Events other than runner calls do not count as conversions. -/
theorem countP_isConvert_no_exec {evs : Trace}
    (h : ∀ bin quiet args, Event.executeCommand bin quiet args ∉ evs) :
    evs.countP Event.isConvert = 0 := by
  rw [List.countP_eq_zero]
  intro e he
  cases e with
  | executeCommand bin quiet args => exact absurd he (h bin quiet args)
  | _ => simp [Event.isConvert]

/-- A run of `Build` whose preparation phase succeeded but which does not find the binary
of the external compiler for the conversion ends with the error of the lookup, without any
further interaction. -/
theorem build_lookup_fails {env : Env} {b b' : BuilderParams} {t t1 : Trace}
    {cs args : List Str} {err : GoError}
    (h : buildPrepare env b t = (.ok (b', cs, args), t1))
    (hlookup : (getCSolutionPath env b' t1).2 = some err) :
    Build env b t = (some err, t1) := by
  rcases runCSolution_cases env b' args false t1 with ⟨err', herr, hrun⟩ | ⟨hfound, -⟩
  · rw [hlookup] at herr
    cases herr
    simp only [Build, h, hrun]
  · rw [hlookup] at hfound
    cases hfound

/-- The shape of a run of `Build` whose preparation phase succeeded and which finds the
binary of the external compiler for the conversion: the conversion is started next,
followed only by events of the per-context processing. -/
theorem build_after_prepare {env : Env} {b b' : BuilderParams} {t t1 : Trace}
    {cs args : List Str} (h : buildPrepare env b t = (.ok (b', cs, args), t1))
    (hfound : (getCSolutionPath env b' t1).2 = none) :
    ∃ evs, (Build env b t).2 =
        t1 ++ Event.executeCommand (csolutionBinOf b') false args :: evs ∧
      (∀ bin quiet a, Event.executeCommand bin quiet a ∉ evs) ∧
      (∀ err, env.executeCommand t1 (csolutionBinOf b') false args = .error err →
        (Build env b t).1 = some err ∧ evs = []) := by
  rcases runCSolution_cases env b' args false t1 with ⟨err, herr, -⟩ | ⟨-, hrun⟩
  · rw [hfound] at herr
    cases herr
  · cases hexec : env.executeCommand t1 (csolutionBinOf b') false args with
    | error err =>
      have hbuild : Build env b t = (some err,
          t1 ++ [Event.executeCommand (csolutionBinOf b') false args]) := by
        simp only [Build, h, hrun, hexec]
      rw [hbuild]
      refine ⟨[], rfl, by simp, ?_⟩
      intro err' herr'
      cases herr'
      exact ⟨rfl, rfl⟩
    | ok out =>
      have hbuild : Build env b t = processContexts env b' cs
          (t1 ++ [Event.executeCommand (csolutionBinOf b') false args]) := by
        simp only [Build, h, hrun, hexec]
      obtain ⟨evs, hevs, hno, -⟩ := processContexts_events env b' cs
        (t1 ++ [Event.executeCommand (csolutionBinOf b') false args])
      rw [hbuild, hevs]
      refine ⟨evs, by simp, hno, ?_⟩
      intro err' herr'
      cases herr'

/-- C6 fails as stated: in an environment where the binary of the external compiler is
found for the context listing but reported missing afterwards, the run gets past selection
and argument formulation (the `Packs` flag is off), yet `convert` is not invoked and
`Build` returns the error of the lookup. -/
theorem build_prepared_without_convert :
    (buildPrepare (vanishingEnv "A.Debug+Board\n".data ["A.Debug+Board.cbuild.yml".data])
        (sampleBuilder sampleOptions) []).1 =
      .ok (sampleBuilder sampleOptions, ["A.Debug+Board".data],
        ["convert".data, "--solution=sol/MySolution.csolution.yml".data]) ∧
    ((Build (vanishingEnv "A.Debug+Board\n".data ["A.Debug+Board.cbuild.yml".data])
        (sampleBuilder sampleOptions) []).2).countP Event.isConvert = 0 ∧
    (Build (vanishingEnv "A.Debug+Board\n".data ["A.Debug+Board.cbuild.yml".data])
        (sampleBuilder sampleOptions) []).1 = some "stat: no such file".data := by
  refine ⟨by rfl, by rfl, by rfl⟩

/-- C6, amended: in every run of `Build` the `convert` operation is invoked at most once:
not at all when the preparation phase (listing, selection, argument formulation, pack
installation) fails or when the lookup of the external compiler's binary before the
conversion fails, in which case `Build` returns the error of the lookup; and exactly once
when the preparation succeeds and that lookup finds the binary. It is then invoked with the
arguments that `formulateArgs` gives for the command `convert`, no context has been started
before it, and only events of the per-context processing follow. If the conversion fails,
`Build` returns its error and no context is started. -/
theorem convert_invoked_once (env : Env) (b : BuilderParams) (t : Trace) :
    (((Build env b t).2).drop t.length).countP Event.isConvert ≤ 1 ∧
    (∀ (err : GoError) (t1 : Trace), buildPrepare env b t = (.error err, t1) →
      Build env b t = (some err, t1) ∧
      (((Build env b t).2).drop t.length).countP Event.isConvert = 0) ∧
    (∀ (b' : BuilderParams) (cs args : List Str) (t1 : Trace),
      buildPrepare env b t = (.ok (b', cs, args), t1) →
      formulateArgs b' ["convert".data] = .ok args ∧
      processedContexts (t1.drop t.length) = [] ∧
      (∀ err, (getCSolutionPath env b' t1).2 = some err →
        Build env b t = (some err, t1) ∧
        (((Build env b t).2).drop t.length).countP Event.isConvert = 0) ∧
      ((getCSolutionPath env b' t1).2 = none →
        (((Build env b t).2).drop t.length).countP Event.isConvert = 1 ∧
        ∃ evs, (Build env b t).2 =
            t1 ++ Event.executeCommand (csolutionBinOf b') false args :: evs ∧
          (∀ bin quiet a, Event.executeCommand bin quiet a ∉ evs) ∧
          (∀ err, env.executeCommand t1 (csolutionBinOf b') false args = .error err →
            (Build env b t).1 = some err ∧ evs = [] ∧
            processedContexts (((Build env b t).2).drop t.length) = []))) := by
  obtain ⟨evsP, hP, hprep⟩ := buildPrepare_preparation env b t
  have hfail : ∀ (err : GoError) (t1 : Trace), buildPrepare env b t = (.error err, t1) →
      Build env b t = (some err, t1) ∧
      (((Build env b t).2).drop t.length).countP Event.isConvert = 0 := by
    intro err t1 h
    have hbuild : Build env b t = (some err, t1) := by simp only [Build, h]
    rw [h] at hP
    simp only at hP
    subst hP
    rw [hbuild]
    exact ⟨rfl, by rw [List.drop_left]; exact countP_isConvert_preparation hprep⟩
  have hok : ∀ (b' : BuilderParams) (cs args : List Str) (t1 : Trace),
      buildPrepare env b t = (.ok (b', cs, args), t1) →
      formulateArgs b' ["convert".data] = .ok args ∧
      processedContexts (t1.drop t.length) = [] ∧
      (∀ err, (getCSolutionPath env b' t1).2 = some err →
        Build env b t = (some err, t1) ∧
        (((Build env b t).2).drop t.length).countP Event.isConvert = 0) ∧
      ((getCSolutionPath env b' t1).2 = none →
        (((Build env b t).2).drop t.length).countP Event.isConvert = 1 ∧
        ∃ evs, (Build env b t).2 =
            t1 ++ Event.executeCommand (csolutionBinOf b') false args :: evs ∧
          (∀ bin quiet a, Event.executeCommand bin quiet a ∉ evs) ∧
          (∀ err, env.executeCommand t1 (csolutionBinOf b') false args = .error err →
            (Build env b t).1 = some err ∧ evs = [] ∧
            processedContexts (((Build env b t).2).drop t.length) = [])) := by
    intro b' cs args t1 h
    have hargs := buildPrepare_ok h
    have ht1 := hP
    rw [h] at ht1
    simp only at ht1
    subst ht1
    have hconv : (Event.executeCommand (csolutionBinOf b') false args).isConvert
        = true := by
      simp [Event.isConvert, formulateArgs_head hargs]
    refine ⟨hargs, ?_, ?_, ?_⟩
    · rw [List.drop_left]
      exact processedContexts_preparation hprep
    · intro err hlookup
      have hbuild := build_lookup_fails h hlookup
      rw [hbuild]
      exact ⟨rfl, by rw [List.drop_left]; exact countP_isConvert_preparation hprep⟩
    · intro hfound
      obtain ⟨evs, hevs, hno, herr⟩ := build_after_prepare h hfound
      refine ⟨?_, evs, hevs, hno, ?_⟩
      · rw [hevs, List.append_assoc, List.drop_left, List.countP_append, List.countP_cons,
          countP_isConvert_preparation hprep, countP_isConvert_no_exec hno, hconv]
        rfl
      · intro err hexec
        obtain ⟨h1, h2⟩ := herr err hexec
        refine ⟨h1, h2, ?_⟩
        rw [hevs, h2, List.append_assoc, List.drop_left]
        simp only [processedContexts, List.filterMap_append]
        have := processedContexts_preparation hprep
        simp only [processedContexts] at this
        rw [this]
        rfl
  refine ⟨?_, hfail, hok⟩
  rcases hbp : buildPrepare env b t with ⟨r, t1⟩
  cases r with
  | error err => rw [(hfail err t1 hbp).2]; exact Nat.zero_le 1
  | ok v =>
    obtain ⟨b', cs, args⟩ := v
    obtain ⟨-, -, hmiss, hfound⟩ := hok b' cs args t1 hbp
    cases hlookup : (getCSolutionPath env b' t1).2 with
    | some err => rw [(hmiss err hlookup).2]; exact Nat.zero_le 1
    | none => rw [(hfound hlookup).1]

/-- Witness for C6: a run over three contexts in which the binary is found invokes
`convert` once, with the arguments formulated for the command `convert`. -/
theorem convert_invoked_once_witness :
    formulateArgs (sampleBuilder sampleOptions) ["convert".data] =
      .ok ["convert".data, "--solution=sol/MySolution.csolution.yml".data] ∧
    (((Build threeContextsEnv (sampleBuilder sampleOptions) []).2).drop 0).countP
      Event.isConvert = 1 :=
  have h := (convert_invoked_once threeContextsEnv (sampleBuilder sampleOptions) []).2.2
    (sampleBuilder sampleOptions)
    ["A.Debug+Board".data, "B.Debug+Board".data, "C.Debug+Board".data]
    ["convert".data, "--solution=sol/MySolution.csolution.yml".data]
    [Event.updateEnvVars "/opt/bin".data "/opt/etc".data,
      Event.executeCommand "/opt/bin/csolution".data true
        ["list".data, "contexts".data, "--solution=sol/MySolution.csolution.yml".data,
          "--yml-order".data]]
    (by rfl)
  ⟨h.1, (h.2.2.2 (by rfl)).1⟩

/-! ## The context processor -/

/-- C7: `processContext` accepts the input file name, that is, goes on to read the index
document, exactly when the base name of the input file split at `.` has exactly three
components. Otherwise it fails with "invalid csolution file name" right after its banner:
the index document is not read and the per-project builder is not invoked. The name
`MySolution.csolution.yml` splits into three tokens, `MySolution.yml` into two. -/
theorem processContext_file_name_check (env : Env) (b : BuilderParams) (context : Str)
    (t : Trace) :
    ((∃ idxFile, Event.parseCbuildIndexFile idxFile ∈
        ((processContext env b context t).2).drop t.length) ↔
      (stringsSplit '.' (filepathBase b.InputFile)).length = 3) ∧
    ((stringsSplit '.' (filepathBase b.InputFile)).length = 3 →
      ∃ evs, (processContext env b context t).2 =
        t ++ Event.processingContext context ::
          Event.parseCbuildIndexFile (indexFileOf b) :: evs) ∧
    ((stringsSplit '.' (filepathBase b.InputFile)).length ≠ 3 →
      processContext env b context t =
        (some "invalid csolution file name".data, t ++ [Event.processingContext context])) ∧
    stringsSplit '.' (filepathBase "MySolution.csolution.yml".data) =
      ["MySolution".data, "csolution".data, "yml".data] ∧
    stringsSplit '.' (filepathBase "MySolution.yml".data) = ["MySolution".data, "yml".data] := by
  have hacc : (stringsSplit '.' (filepathBase b.InputFile)).length = 3 →
      ∃ evs, (processContext env b context t).2 =
        t ++ Event.processingContext context ::
          Event.parseCbuildIndexFile (indexFileOf b) :: evs := by
    intro h3
    unfold processContext
    simp only [h3, ne_eq, not_true_eq_false, if_false]
    have htr := getCprjFilePath_trace env (indexFileOf b) context
      (t ++ [Event.processingContext context])
    rcases hget : getCprjFilePath env (indexFileOf b) context
      (t ++ [Event.processingContext context]) with ⟨⟨cprjFile, err⟩, t'⟩
    rw [hget] at htr
    simp only at htr
    subst htr
    unfold indexFileOf at hget
    rw [hget]
    cases err with
    | some err => exact ⟨[], by simp [indexFileOf]⟩
    | none =>
      simp only [indexFileOf, List.append_assoc, List.singleton_append]
      exact ⟨_, rfl⟩
  have hrej : (stringsSplit '.' (filepathBase b.InputFile)).length ≠ 3 →
      processContext env b context t =
        (some "invalid csolution file name".data, t ++ [Event.processingContext context]) := by
    intro h3
    unfold processContext
    simp only [h3, ne_eq, not_false_eq_true, if_true]
  refine ⟨⟨?_, ?_⟩, hacc, hrej, by decide, by decide⟩
  · rintro ⟨idxFile, hmem⟩
    by_contra h3
    rw [hrej h3] at hmem
    simp at hmem
  · intro h3
    obtain ⟨evs, hevs⟩ := hacc h3
    refine ⟨indexFileOf b, ?_⟩
    rw [hevs, List.drop_left]
    simp

/-- Witness for C7: the input file `MySolution.yml` is rejected right after the banner. -/
theorem processContext_file_name_check_witness :
    processContext (sampleEnv [] [])
        { sampleBuilder sampleOptions with InputFile := "MySolution.yml".data }
        "App+Board".data [] =
      (some "invalid csolution file name".data, [Event.processingContext "App+Board".data]) :=
  (processContext_file_name_check (sampleEnv [] [])
    { sampleBuilder sampleOptions with InputFile := "MySolution.yml".data }
    "App+Board".data []).2.2.1 (by decide)

/-! ## The descriptor locator -/

/-- The search loop finds nothing exactly when no stored path contains the context name. -/
theorem findCbuild_eq_nil_iff (context : Str) (hctx : context ≠ []) :
    ∀ cbuilds : List Str,
      findCbuild context cbuilds = [] ↔ ∀ p ∈ cbuilds, ¬ context <:+: p := by
  intro cbuilds
  induction cbuilds with
  | nil => simp [findCbuild]
  | cons c rest ih =>
    by_cases hc : stringsContains c context = true
    · have hin := (stringsContains_iff _ _).mp hc
      have hne : c ≠ [] := by
        intro h
        rw [h, List.infix_nil] at hin
        exact hctx hin
      simp only [findCbuild, hc, if_true, hne, false_iff]
      intro hall
      exact hall c (List.mem_cons_self _ _) hin
    · have hin : ¬ context <:+: c := fun h => hc ((stringsContains_iff _ _).mpr h)
      simp only [findCbuild, hc, Bool.false_eq_true, if_false, ih, List.mem_cons,
        forall_eq_or_imp, hin, not_false_eq_true, true_and]

/-- The search loop returns the first stored path that contains the context name. -/
theorem findCbuild_first (context : Str) :
    ∀ (pre : List Str) (p : Str) (post : List Str),
      (∀ q ∈ pre, ¬ context <:+: q) → context <:+: p →
      findCbuild context (pre ++ p :: post) = p := by
  intro pre
  induction pre with
  | nil =>
    intro p post _ hp
    simp [findCbuild, (stringsContains_iff _ _).mpr hp]
  | cons q pre ih =>
    intro p post hpre hp
    have hq : ¬ stringsContains q context = true :=
      fun h => hpre q (List.mem_cons_self _ _) ((stringsContains_iff _ _).mp h)
    simp only [List.cons_append, findCbuild, hq, if_false]
    exact ih p post (fun r hr => hpre r (List.mem_cons_of_mem _ hr)) hp

/-- C8: for a successfully parsed index document and a non-empty context name,
`getCprjFilePath` fails with "cprj file path not found" exactly when no stored path
contains the context name as a substring; otherwise it returns
`Dir(idxFile) + "/" + Dir(p) + "/" + context + ".cprj"` for the first stored path `p`, in
document order, that contains the context name, whatever entries follow. -/
theorem getCprjFilePath_first_match (env : Env) (idxFile context : Str) (t : Trace)
    (cbuilds : List Str)
    (hparse : env.parseCbuildIndexFile t idxFile = .ok cbuilds) (hctx : context ≠ []) :
    (((getCprjFilePath env idxFile context t).1).2 = some "cprj file path not found".data ↔
      ∀ p ∈ cbuilds, ¬ context <:+: p) ∧
    (∀ (pre : List Str) (p : Str) (post : List Str), cbuilds = pre ++ p :: post →
      (∀ q ∈ pre, ¬ context <:+: q) → context <:+: p →
      (getCprjFilePath env idxFile context t).1 =
        (filepathDir idxFile ++ "/".data ++ filepathDir p ++ "/".data ++ context ++ ".cprj".data,
          none)) := by
  constructor
  · unfold getCprjFilePath
    simp only [hparse]
    rw [← findCbuild_eq_nil_iff context hctx]
    by_cases h : findCbuild context cbuilds = []
    · simp [h]
    · simp [h]
  · intro pre p post hsplit hpre hp
    have hfind : findCbuild context cbuilds = p := by
      rw [hsplit]
      exact findCbuild_first context pre p post hpre hp
    have hne : p ≠ [] := by
      intro h
      rw [h, List.infix_nil] at hp
      exact hctx hp
    unfold getCprjFilePath
    simp only [hparse, hfind, hne, if_false]

/-- Witness for C8: the first entry merely contains the context name, the second is the
exact one; the path is derived from the first. -/
theorem getCprjFilePath_first_match_witness :
    (getCprjFilePath
        (sampleEnv [] ["x/App.Debug+Board2.cbuild.yml".data, "y/App.Debug+Board.cbuild.yml".data])
        "sol/MySolution.cbuild-idx.yml".data "App.Debug+Board".data []).1 =
      ("sol/x/App.Debug+Board.cprj".data, none) :=
  (getCprjFilePath_first_match
    (sampleEnv [] ["x/App.Debug+Board2.cbuild.yml".data, "y/App.Debug+Board.cbuild.yml".data])
    "sol/MySolution.cbuild-idx.yml".data "App.Debug+Board".data []
    ["x/App.Debug+Board2.cbuild.yml".data, "y/App.Debug+Board.cbuild.yml".data]
    rfl (by decide)).2 [] "x/App.Debug+Board2.cbuild.yml".data
    ["y/App.Debug+Board.cbuild.yml".data] rfl (by simp)
    ⟨"x/".data, "2.cbuild.yml".data, rfl⟩

/-! ## The path formulator -/

/-- The result of `stringsSplit` always has a first token. -/
theorem stringsSplit_ne_nil (sep : Char) (s : Str) : stringsSplit sep s ≠ [] := by
  cases s with
  | nil => simp [stringsSplit]
  | cons c s =>
    unfold stringsSplit
    split
    · simp
    · split <;> simp

/-- Splitting a string around one separator splits both sides. -/
theorem stringsSplit_append_sep (sep : Char) (a b : Str) :
    stringsSplit sep (a ++ sep :: b) = stringsSplit sep a ++ stringsSplit sep b := by
  induction a with
  | nil => simp [stringsSplit]
  | cons c a ih =>
    by_cases hc : c = sep
    · simp [stringsSplit, hc, ih]
    · simp only [List.cons_append, stringsSplit, hc, if_false, List.append_eq]
      rw [ih]
      rcases hsplit : stringsSplit sep a with _ | ⟨tok, toks⟩
      · exact absurd hsplit (stringsSplit_ne_nil sep a)
      · rfl

/-- A string without the separator is its own single token. -/
theorem stringsSplit_of_not_mem (sep : Char) (s : Str) (h : sep ∉ s) :
    stringsSplit sep s = [s] := by
  induction s with
  | nil => rfl
  | cons c s ih =>
    have hc : c ≠ sep := fun hc => h (hc ▸ List.mem_cons_self _ _)
    have hs : sep ∉ s := fun hs => h (List.mem_cons_of_mem _ hs)
    simp [stringsSplit, hc, ih hs]

/-- No token of `stringsSplit` contains the separator. -/
theorem not_mem_of_mem_stringsSplit (sep : Char) (s : Str) :
    ∀ e ∈ stringsSplit sep s, sep ∉ e := by
  induction s with
  | nil => simp [stringsSplit]
  | cons c s ih =>
    intro e he
    unfold stringsSplit at he
    split at he
    · rcases List.mem_cons.mp he with h | h
      · subst h
        simp
      · exact ih e h
    · rename_i hc
      split at he
      · rename_i hsplit
        exact absurd hsplit (stringsSplit_ne_nil sep s)
      · rename_i tok toks hsplit
        rw [hsplit] at ih
        rcases List.mem_cons.mp he with h | h
        · subst h
          intro hmem
          rcases List.mem_cons.mp hmem with h' | h'
          · exact hc h'.symm
          · exact ih tok (List.mem_cons_self _ _) h'
        · exact ih e (List.mem_cons_of_mem _ h)

/-- Splitting a joined list of separator-free elements gives the elements back. -/
theorem stringsSplit_stringsJoin (sep : Char) :
    ∀ elems : List Str, elems ≠ [] → (∀ e ∈ elems, sep ∉ e) →
      stringsSplit sep (stringsJoin elems [sep]) = elems := by
  intro elems
  induction elems with
  | nil => intro h; exact absurd rfl h
  | cons e es ih =>
    intro _ hall
    cases es with
    | nil => exact stringsSplit_of_not_mem sep e (hall e (List.mem_cons_self _ _))
    | cons e' es =>
      simp only [stringsJoin, List.append_assoc, List.singleton_append]
      rw [stringsSplit_append_sep,
        stringsSplit_of_not_mem sep e (hall e (List.mem_cons_self _ _)),
        ih (by simp) (fun x hx => hall x (List.mem_cons_of_mem _ hx))]
      rfl

/-- A joined list starts like its first element when that is non-empty. -/
theorem stringsJoin_head (e : Str) (es : List Str) (sep : Str) (he : e ≠ []) :
    (stringsJoin (e :: es) sep).head? = e.head? := by
  cases e with
  | nil => exact absurd rfl he
  | cons c e =>
    cases es with
    | nil => rfl
    | cons e' es => simp [stringsJoin]

/-- One step of `filepath.Clean` keeps the stack well formed. -/
theorem validStack_cleanStep (rooted : Bool) (stack : List Str) (elem : Str)
    (hs : validStack rooted stack) (he : '/' ∉ elem) :
    validStack rooted (cleanStep rooted stack elem) := by
  unfold cleanStep
  split
  · exact hs
  · rename_i h1
    have hne : elem ≠ [] := fun h => h1 (Or.inl h)
    have hdot : elem ≠ ['.'] := fun h => h1 (Or.inr h)
    split
    · rename_i h2
      cases stack with
      | nil =>
        simp only
        split
        · trivial
        · rename_i hr
          exact ⟨by simp, by simp, by simp, fun _ => ⟨by simpa using hr, by simp⟩, trivial⟩
      | cons top rest =>
        simp only
        split
        · rename_i htop
          split
          · exact hs
          · rename_i hr
            refine ⟨by simp, by simp, by simp, fun _ => ⟨by simpa using hr, ?_⟩, hs⟩
            intro x hx
            rcases List.mem_cons.mp hx with h | h
            · rw [h, htop]
            · exact (hs.2.2.2.1 htop).2 x h
        · exact hs.2.2.2.2
    · rename_i h2
      exact ⟨hne, hdot, he, fun h => absurd h h2, hs⟩

/-- Processing separator-free elements keeps the stack well formed. -/
theorem validStack_foldl (rooted : Bool) :
    ∀ (elems : List Str) (stack : List Str), validStack rooted stack →
      (∀ e ∈ elems, '/' ∉ e) → validStack rooted (elems.foldl (cleanStep rooted) stack) := by
  intro elems
  induction elems with
  | nil => intro stack hs _; exact hs
  | cons e es ih =>
    intro stack hs hall
    exact ih _ (validStack_cleanStep rooted stack e hs (hall e (List.mem_cons_self _ _)))
      (fun x hx => hall x (List.mem_cons_of_mem _ hx))

/-- Processing the elements of a well-formed stack again rebuilds the stack. -/
theorem cleanStep_refold (rooted : Bool) :
    ∀ stack : List Str, validStack rooted stack →
      stack.reverse.foldl (cleanStep rooted) [] = stack := by
  intro stack
  induction stack with
  | nil => intro _; rfl
  | cons e stack ih =>
    intro hs
    obtain ⟨hne, hdot, -, hdd, hrest⟩ := hs
    rw [List.reverse_cons, List.foldl_append, ih hrest]
    simp only [List.foldl_cons, List.foldl_nil, cleanStep, hne, hdot, or_self, if_false]
    by_cases h2 : e = ['.', '.']
    · obtain ⟨hr, hall⟩ := hdd h2
      subst h2
      cases stack with
      | nil => simp [hr]
      | cons top rest =>
        have htop := hall top (List.mem_cons_self _ _)
        simp [hr, htop]
    · simp [h2]

/-- Elements of a well-formed stack are non-empty and free of separators. -/
theorem validStack_mem (rooted : Bool) :
    ∀ stack : List Str, validStack rooted stack → ∀ e ∈ stack, e ≠ [] ∧ '/' ∉ e := by
  intro stack
  induction stack with
  | nil => intro _ e he; simp at he
  | cons x stack ih =>
    intro hs e he
    rcases List.mem_cons.mp he with h | h
    · subst h
      exact ⟨hs.1, hs.2.2.1⟩
    · exact ih hs.2.2.2.2 e h

/-- The rendering of a non-empty well-formed stack is non-empty and does not start with a
separator. -/
theorem stringsJoin_stack (rooted : Bool) (stack : List Str) (hs : validStack rooted stack)
    (hne : stack ≠ []) :
    stringsJoin stack.reverse ['/'] ≠ [] ∧
    (stringsJoin stack.reverse ['/']).head? ≠ some '/' := by
  rcases hrev : stack.reverse with _ | ⟨f, fs⟩
  · exact absurd (List.reverse_eq_nil_iff.mp hrev) hne
  · have hf : f ∈ stack := by
      have : f ∈ stack.reverse := by rw [hrev]; exact List.mem_cons_self _ _
      exact List.mem_reverse.mp this
    obtain ⟨hfne, hfsep⟩ := validStack_mem rooted stack hs f hf
    have hhead := stringsJoin_head f fs ['/'] hfne
    cases f with
    | nil => exact absurd rfl hfne
    | cons c f =>
      simp only [List.head?_cons] at hhead
      constructor
      · intro h
        rw [h] at hhead
        cases hhead
      · rw [hhead]
        intro h
        cases h
        exact hfsep (List.mem_cons_self _ _)

/-- The result of `cleanRender` is never empty. -/
theorem cleanRender_ne_nil (rooted : Bool) (stack : List Str) :
    cleanRender rooted stack ≠ [] := by
  unfold cleanRender
  simp only
  split
  · simp
  · split
    · simp
    · assumption

/-- The rendering of a well-formed stack is rooted exactly when the path was. -/
theorem cleanRender_rooted (rooted : Bool) (stack : List Str)
    (hs : validStack rooted stack) :
    decide ((cleanRender rooted stack).head? = some '/') = rooted := by
  unfold cleanRender
  simp only
  cases rooted with
  | true => simp
  | false =>
    simp only [Bool.false_eq_true, if_false, decide_eq_false_iff_not]
    split
    · simp
    · rename_i hbody
      by_cases hne : stack = []
      · subst hne
        exact absurd rfl hbody
      · exact (stringsJoin_stack false stack hs hne).2

/-- Cleaning a cleaned path again rebuilds the same stack of elements. -/
theorem cleanRender_refold (rooted : Bool) (stack : List Str)
    (hs : validStack rooted stack) :
    (stringsSplit '/' (cleanRender rooted stack)).foldl (cleanStep rooted) [] = stack := by
  by_cases hne : stack = []
  · subst hne
    cases rooted <;> rfl
  · obtain ⟨hbody, -⟩ := stringsJoin_stack rooted stack hs hne
    have hsplit : stringsSplit '/' (stringsJoin stack.reverse ['/']) = stack.reverse :=
      stringsSplit_stringsJoin '/' stack.reverse
        (fun h => hne (List.reverse_eq_nil_iff.mp h))
        (fun e he => (validStack_mem rooted stack hs e (List.mem_reverse.mp he)).2)
    unfold cleanRender
    simp only
    cases rooted with
    | true =>
      simp only [if_true, stringsSplit, hsplit, List.foldl_cons]
      have : cleanStep true [] [] = [] := rfl
      rw [this]
      exact cleanStep_refold true stack hs
    | false =>
      simp only [Bool.false_eq_true, if_false, hbody, hsplit]
      exact cleanStep_refold false stack hs

/-- The definition of `filepathClean`, unfolded once. -/
theorem filepathClean_eq (path : Str) :
    filepathClean path =
      cleanRender (decide (path.head? = some '/'))
        ((stringsSplit '/' path).foldl (cleanStep (decide (path.head? = some '/'))) []) := rfl

/-- Joining onto a cleaned path is joining onto the path: the first cleaning can be
dropped. -/
theorem filepathClean_join (x y : Str) (hx : x ≠ []) :
    filepathClean (filepathClean x ++ '/' :: y) = filepathClean (x ++ '/' :: y) := by
  have hvalid : validStack (decide (x.head? = some '/'))
      ((stringsSplit '/' x).foldl (cleanStep (decide (x.head? = some '/'))) []) :=
    validStack_foldl _ _ [] trivial (not_mem_of_mem_stringsSplit '/' x)
  have hroot1 : (x ++ '/' :: y).head? = x.head? := by
    cases x with
    | nil => exact absurd rfl hx
    | cons c x => rfl
  have hroot2 : (filepathClean x ++ '/' :: y).head? = (filepathClean x).head? := by
    have hne : filepathClean x ≠ [] := cleanRender_ne_nil _ _
    rcases hcx : filepathClean x with _ | ⟨c, cx⟩
    · exact absurd hcx hne
    · rfl
  have hroot3 : decide ((filepathClean x).head? = some '/') = decide (x.head? = some '/') :=
    cleanRender_rooted _ _ hvalid
  have hfold : (stringsSplit '/' (filepathClean x)).foldl
      (cleanStep (decide (x.head? = some '/'))) [] =
      (stringsSplit '/' x).foldl (cleanStep (decide (x.head? = some '/'))) [] :=
    cleanRender_refold _ _ hvalid
  have hl : filepathClean (filepathClean x ++ '/' :: y) =
      cleanRender (decide (x.head? = some '/'))
        ((stringsSplit '/' y).foldl (cleanStep (decide (x.head? = some '/')))
          ((stringsSplit '/' x).foldl (cleanStep (decide (x.head? = some '/'))) [])) := by
    rw [filepathClean_eq (filepathClean x ++ '/' :: y)]
    simp only [hroot2, hroot3, stringsSplit_append_sep, List.foldl_append, hfold]
  have hr : filepathClean (x ++ '/' :: y) =
      cleanRender (decide (x.head? = some '/'))
        ((stringsSplit '/' y).foldl (cleanStep (decide (x.head? = some '/')))
          ((stringsSplit '/' x).foldl (cleanStep (decide (x.head? = some '/'))) [])) := by
    rw [filepathClean_eq (x ++ '/' :: y)]
    simp only [hroot1, stringsSplit_append_sep, List.foldl_append]
  rw [hl, hr]

/-- The result of `filepath.Clean`, hence of `filepath.Dir`, is never empty. -/
theorem filepathClean_ne_nil (path : Str) : filepathClean path ≠ [] :=
  cleanRender_ne_nil _ _

/-- Joining one more element at the end of a non-empty list of elements. -/
theorem stringsJoin_snoc (sep z : Str) :
    ∀ l : List Str, l ≠ [] → stringsJoin (l ++ [z]) sep = stringsJoin l sep ++ sep ++ z := by
  intro l
  induction l with
  | nil => intro h; exact absurd rfl h
  | cons e es ih =>
    intro _
    cases es with
    | nil => simp [stringsJoin]
    | cons e' es =>
      have h := ih (by simp)
      show e ++ sep ++ stringsJoin (e' :: es ++ [z]) sep =
        e ++ sep ++ stringsJoin (e' :: es) sep ++ sep ++ z
      rw [h]
      simp only [List.append_assoc]

/-- A joined list with a non-empty first element is non-empty. -/
theorem stringsJoin_ne_nil (e : Str) (es : List Str) (sep : Str) (he : e ≠ []) :
    stringsJoin (e :: es) sep ≠ [] := by
  intro h
  have hhead := stringsJoin_head e es sep he
  rw [h] at hhead
  cases e with
  | nil => exact he rfl
  | cons c e => cases hhead

/-- Nested calls of `filepath.Join` flatten: joining `z` onto the join of a list that
starts with a non-empty element is the join of the extended list. -/
theorem filepathJoin_snoc (e : Str) (es : List Str) (z : Str) (he : e ≠ []) :
    filepathJoin [filepathJoin (e :: es), z] = filepathJoin (e :: (es ++ [z])) := by
  have h1 : filepathJoin (e :: es) = filepathClean (stringsJoin (e :: es) ['/']) := by
    simp [filepathJoin, he]
  have h2 : filepathJoin (e :: (es ++ [z])) =
      filepathClean (stringsJoin (e :: (es ++ [z])) ['/']) := by
    simp [filepathJoin, he]
  have h3 : filepathJoin [filepathClean (stringsJoin (e :: es) ['/']), z] =
      filepathClean (filepathClean (stringsJoin (e :: es) ['/']) ++ '/' :: z) := by
    simp [filepathJoin, stringsJoin, filepathClean_ne_nil]
  have h4 : stringsJoin (e :: (es ++ [z])) ['/'] = stringsJoin (e :: es) ['/'] ++ '/' :: z := by
    have := stringsJoin_snoc ['/'] z (e :: es) (by simp)
    simpa using this
  rw [h1, h2, h3, h4, filepathClean_join _ _ (stringsJoin_ne_nil e es ['/'] he)]

/-- On the success path `processContext` delegates to the per-project builder with the
descriptor as input file and with `OutDir` and `IntDir` replaced by the formulated paths. -/
theorem processContext_delegates (env : Env) (b : BuilderParams) (context cprjFile : Str)
    (t : Trace)
    (h3 : (stringsSplit '.' (filepathBase b.InputFile)).length = 3)
    (hget : (getCprjFilePath env (indexFileOf b) context
      (t ++ [Event.processingContext context])).1 = (cprjFile, none)) :
    processContext env b context t =
      (env.cprjBuild
          (t ++ [Event.processingContext context, Event.parseCbuildIndexFile (indexFileOf b)])
          { Options := { b.Options with
              OutDir := formulatePath cprjFile "out".data (env.parseContext context).1
              IntDir := formulatePath cprjFile "tmp".data (env.parseContext context).1 }
            InputFile := cprjFile
            InstallConfigs := b.InstallConfigs },
        t ++ [Event.processingContext context, Event.parseCbuildIndexFile (indexFileOf b),
          Event.cprjBuild
            { Options := { b.Options with
                OutDir := formulatePath cprjFile "out".data (env.parseContext context).1
                IntDir := formulatePath cprjFile "tmp".data (env.parseContext context).1 }
              InputFile := cprjFile
              InstallConfigs := b.InstallConfigs }]) := by
  have htr := getCprjFilePath_trace env (indexFileOf b) context
    (t ++ [Event.processingContext context])
  rcases hres : getCprjFilePath env (indexFileOf b) context
    (t ++ [Event.processingContext context]) with ⟨r, t'⟩
  rw [hres] at htr hget
  simp only at htr hget
  subst htr hget
  unfold indexFileOf at hres
  unfold processContext
  simp only [h3, ne_eq, not_true_eq_false, if_false, hres, indexFileOf, List.append_assoc,
    List.singleton_append, List.cons_append, List.nil_append]

/-- C9: for every descriptor path `d` and context item, the output directory that
`processContext` computes is `Join(Dir(d), "out", projectName, buildType, targetType)` when
the build type is non-empty and `Join(Dir(d), "out", projectName, targetType)` when it is
empty, and the intermediate directory is the same with `tmp`; these are the `OutDir` and
`IntDir` handed to the per-project builder. The item `App`, no build type, `Board` under
`sol/` gives `sol/out/App/Board`. -/
theorem formulatePath_layout (d : Str) (item : ContextItem) :
    (item.BuildType ≠ [] →
      formulatePath d "out".data item =
        filepathJoin [filepathDir d, "out".data, item.ProjectName, item.BuildType,
          item.TargetType] ∧
      formulatePath d "tmp".data item =
        filepathJoin [filepathDir d, "tmp".data, item.ProjectName, item.BuildType,
          item.TargetType]) ∧
    (item.BuildType = [] →
      formulatePath d "out".data item =
        filepathJoin [filepathDir d, "out".data, item.ProjectName, item.TargetType] ∧
      formulatePath d "tmp".data item =
        filepathJoin [filepathDir d, "tmp".data, item.ProjectName, item.TargetType]) ∧
    (∀ (env : Env) (b : BuilderParams) (context : Str) (t : Trace),
      (stringsSplit '.' (filepathBase b.InputFile)).length = 3 →
      (getCprjFilePath env (indexFileOf b) context
        (t ++ [Event.processingContext context])).1 = (d, none) →
      (env.parseContext context).1 = item →
      ∃ params, (processContext env b context t).2 =
          t ++ [Event.processingContext context, Event.parseCbuildIndexFile (indexFileOf b),
            Event.cprjBuild params] ∧
        params.InputFile = d ∧
        params.Options.OutDir = formulatePath d "out".data item ∧
        params.Options.IntDir = formulatePath d "tmp".data item) ∧
    formulatePath "sol/App+Board.cprj".data "out".data
      ⟨"App".data, [], "Board".data⟩ = "sol/out/App/Board".data := by
  have hdir : filepathDir d ≠ [] := filepathClean_ne_nil _
  have hwith : ∀ dir : Str, item.BuildType ≠ [] →
      formulatePath d dir item =
        filepathJoin [filepathDir d, dir, item.ProjectName, item.BuildType,
          item.TargetType] := by
    intro dir hb
    simp only [formulatePath, hb, ne_eq, not_false_eq_true, if_true]
    rw [filepathJoin_snoc _ _ _ hdir, filepathJoin_snoc _ _ _ hdir]
    rfl
  have hwithout : ∀ dir : Str, item.BuildType = [] →
      formulatePath d dir item =
        filepathJoin [filepathDir d, dir, item.ProjectName, item.TargetType] := by
    intro dir hb
    simp only [formulatePath, hb, ne_eq, not_true_eq_false, if_false]
    rw [filepathJoin_snoc _ _ _ hdir]
    rfl
  refine ⟨fun hb => ⟨hwith _ hb, hwith _ hb⟩, fun hb => ⟨hwithout _ hb, hwithout _ hb⟩, ?_,
    by decide⟩
  intro env b context t h3 hget hitem
  rw [processContext_delegates env b context d t h3 hget, hitem]
  exact ⟨_, rfl, rfl, rfl, rfl⟩

/-- Witness for C9: a context item with build type `Debug`. -/
theorem formulatePath_layout_witness :
    formulatePath "sol/App.Debug+Board.cprj".data "out".data
        ⟨"App".data, "Debug".data, "Board".data⟩ =
      filepathJoin ["sol".data, "out".data, "App".data, "Debug".data, "Board".data] ∧
    filepathJoin ["sol".data, "out".data, "App".data, "Debug".data, "Board".data] =
      "sol/out/App/Debug/Board".data :=
  ⟨((formulatePath_layout "sol/App.Debug+Board.cprj".data
      ⟨"App".data, "Debug".data, "Board".data⟩).1 (by decide)).1, by decide⟩

/-! ## The context catalog -/

/-- C10: `listContexts` does not drop blank lines. For the tool output `A+B`, empty line,
`C+D` it returns three entries, the second being the empty string, and for an output that
consists of a single line break it returns one entry, the empty string: the guard against
an empty output is evaluated before the output is trimmed. -/
theorem listContexts_keeps_blank_lines :
    (listContexts (sampleEnv "A+B\n\nC+D\n".data []) (sampleBuilder sampleOptions)
        true false []).1 = .ok ["A+B".data, [], "C+D".data] ∧
    (listContexts (sampleEnv "\n".data []) (sampleBuilder sampleOptions) true false []).1 =
      .ok [[]] ∧
    parseListOutput "A+B\n\nC+D\n".data = ["A+B".data, [], "C+D".data] ∧
    parseListOutput "\n".data = [[]] ∧
    parseListOutput [] = [] := by
  refine ⟨by rfl, by rfl, by rfl, by rfl, by rfl⟩

/-! ## Validation of a context -/

/-- Characters with the same code point are equal. -/
theorem char_eq_of_toNat_eq {a b : Char} (h : a.toNat = b.toNat) : a = b := by
  apply Char.eq_of_val_eq
  apply UInt32.ext
  exact h

/-- The order `strLe` is total. -/
theorem strLe_total : ∀ a b : Str, strLe a b = false → strLe b a = true := by
  intro a
  induction a with
  | nil => intro b h; simp [strLe] at h
  | cons x a ih =>
    intro b h
    cases b with
    | nil => rfl
    | cons y b =>
      simp only [strLe, Bool.or_eq_false_iff, decide_eq_false_iff_not, Bool.and_eq_false_imp,
        decide_eq_true_eq, Nat.not_lt] at h
      simp only [strLe, Bool.or_eq_true, decide_eq_true_eq, Bool.and_eq_true]
      by_cases hxy : x = y
      · exact Or.inr ⟨hxy.symm, ih b (h.2 hxy)⟩
      · left
        have hne : x.toNat ≠ y.toNat := fun he => hxy (char_eq_of_toNat_eq he)
        omega

/-- The order `strLe` is transitive. -/
theorem strLe_trans : ∀ a b c : Str, strLe a b = true → strLe b c = true → strLe a c = true := by
  intro a
  induction a with
  | nil => intro b c _ _; rfl
  | cons x a ih =>
    intro b c hab hbc
    cases b with
    | nil => simp [strLe] at hab
    | cons y b =>
      cases c with
      | nil => simp [strLe] at hbc
      | cons z c =>
        simp only [strLe, Bool.or_eq_true, decide_eq_true_eq, Bool.and_eq_true] at hab hbc ⊢
        rcases hab with hab | ⟨hxy, hab⟩
        · rcases hbc with hbc | ⟨hyz, _⟩
          · exact Or.inl (Nat.lt_trans hab hbc)
          · subst hyz
            exact Or.inl hab
        · subst hxy
          rcases hbc with hbc | ⟨hyz, hbc⟩
          · exact Or.inl hbc
          · exact Or.inr ⟨hyz, ih b c hab hbc⟩

/-- Inserting into a list keeps its entries and adds the new one. -/
theorem perm_insertSorted (x : Str) : ∀ ys : List Str, (insertSorted x ys).Perm (x :: ys) := by
  intro ys
  induction ys with
  | nil => exact List.Perm.refl _
  | cons y ys ih =>
    unfold insertSorted
    split
    · exact List.Perm.refl _
    · exact (List.Perm.cons y ih).trans (List.Perm.swap x y ys)

/-- The sorted list has the entries of the list, with their multiplicities. -/
theorem perm_sortStrings : ∀ xs : List Str, (sortStrings xs).Perm xs := by
  intro xs
  induction xs with
  | nil => exact List.Perm.refl _
  | cons x xs ih =>
    show (insertSorted x (sortStrings xs)).Perm (x :: xs)
    exact (perm_insertSorted x _).trans (List.Perm.cons x ih)

/-- Inserting into an ascending list gives an ascending list. -/
theorem pairwise_insertSorted (x : Str) :
    ∀ ys : List Str, ys.Pairwise (fun a b => strLe a b = true) →
      (insertSorted x ys).Pairwise (fun a b => strLe a b = true) := by
  intro ys
  induction ys with
  | nil => intro _; simp [insertSorted]
  | cons y ys ih =>
    intro hys
    obtain ⟨hy, hrest⟩ := List.pairwise_cons.mp hys
    unfold insertSorted
    split
    · rename_i hxy
      refine List.pairwise_cons.mpr ⟨?_, hys⟩
      intro z hz
      rcases List.mem_cons.mp hz with h | h
      · rw [h]
        exact hxy
      · exact strLe_trans x y z hxy (hy z h)
    · rename_i hxy
      have hyx : strLe y x = true := strLe_total x y (by simpa using hxy)
      refine List.pairwise_cons.mpr ⟨?_, ih hrest⟩
      intro z hz
      rcases List.mem_cons.mp ((perm_insertSorted x ys).subset hz) with h | h
      · rw [h]
        exact hyx
      · exact hy z h

/-- The sorted list is ascending in the lexicographic order. -/
theorem pairwise_sortStrings :
    ∀ xs : List Str, (sortStrings xs).Pairwise (fun a b => strLe a b = true) := by
  intro xs
  induction xs with
  | nil => exact List.Pairwise.nil
  | cons x xs ih => exact pairwise_insertSorted x _ ih

/-- The order `strLe` is the lexicographic order by code point: `a` comes before or at `b`
exactly when `b` is not lexicographically smaller than `a`. -/
theorem strLe_iff_not_lex : ∀ a b : Str,
    strLe a b = true ↔ ¬ List.Lex (fun c d : Char => c.toNat < d.toNat) b a := by
  intro a
  induction a with
  | nil =>
    intro b
    simp only [strLe, true_iff]
    intro h
    cases h
  | cons x a ih =>
    intro b
    cases b with
    | nil =>
      simp only [strLe, Bool.false_eq_true, false_iff, not_not]
      exact List.Lex.nil
    | cons y b =>
      simp only [strLe, Bool.or_eq_true, decide_eq_true_eq, Bool.and_eq_true, ih b]
      constructor
      · rintro (hlt | ⟨hxy, hle⟩) h
        · cases h with
          | cons _ => exact Nat.lt_irrefl _ hlt
          | rel hyx => exact Nat.lt_asymm hlt hyx
        · subst hxy
          cases h with
          | cons h' => exact hle h'
          | rel hyx => exact Nat.lt_irrefl _ hyx
      · intro h
        by_cases hlt : x.toNat < y.toNat
        · exact Or.inl hlt
        · right
          have hnyx : ¬ y.toNat < x.toNat := fun hyx => h (List.Lex.rel hyx)
          have hxy : x = y := char_eq_of_toNat_eq (by omega)
          subst hxy
          exact ⟨rfl, fun hba => h (List.Lex.cons hba)⟩

/-- C11: for an input that parses to `item` whose canonical form is `context`,
`validateContext` succeeds exactly when `context` is an exact member of the catalog and
then returns `context`; on a miss it fails with the message "specified context '<input>'
not found. One of the following contexts must be specified:", a line break, and the
catalog entries joined by line breaks in ascending lexicographic order: the listed entries
are a permutation of the catalog and no entry is lexicographically smaller than an
earlier one. -/
theorem validateContext_membership (env : Env) (catalog : List Str) (input context : Str)
    (item : ContextItem)
    (hparse : env.parseContext input = (item, none))
    (hcreate : env.createContext item = (context, none)) :
    ((validateContext env catalog input).2 = none ↔ context ∈ catalog) ∧
    (context ∈ catalog → validateContext env catalog input = (context, none)) ∧
    (context ∉ catalog →
      (validateContext env catalog input).2 =
        some ("specified context '".data ++ input ++
          "' not found. One of the following contexts must be specified:\n".data ++
          stringsJoin (sortStrings catalog) "\n".data)) ∧
    (sortStrings catalog).Perm catalog ∧
    (sortStrings catalog).Pairwise
      (fun a b => ¬ List.Lex (fun c d : Char => c.toNat < d.toNat) b a) := by
  have hhit : context ∈ catalog → validateContext env catalog input = (context, none) := by
    intro h
    simp [validateContext, hparse, hcreate, utilsContains, h]
  have hmiss : context ∉ catalog →
      (validateContext env catalog input).2 =
        some ("specified context '".data ++ input ++
          "' not found. One of the following contexts must be specified:\n".data ++
          stringsJoin (sortStrings catalog) "\n".data) := by
    intro h
    simp [validateContext, hparse, hcreate, utilsContains, h]
  refine ⟨⟨?_, fun h => by rw [hhit h]⟩, hhit, hmiss, perm_sortStrings catalog, ?_⟩
  · intro hnone
    by_contra h
    rw [hmiss h] at hnone
    cases hnone
  · exact (pairwise_sortStrings catalog).imp (fun h => (strLe_iff_not_lex _ _).mp h)

/-- Witness for C11: the context `c+T` is not in the catalog `b+T`, `a+T`; the message
lists the catalog as `a+T`, `b+T`. -/
theorem validateContext_membership_witness :
    (validateContext (sampleEnv [] []) ["b+T".data, "a+T".data] "c+T".data).2 =
      some ("specified context 'c+T' not found. " ++
        "One of the following contexts must be specified:\na+T\nb+T").data :=
  (validateContext_membership (sampleEnv [] []) ["b+T".data, "a+T".data] "c+T".data
    "c+T".data ⟨"c".data, [], "T".data⟩ (by rfl) (by rfl)).2.2.1 (by decide)

/-! ## Installation of the missing packs -/

/-- One round of the loop of `installMissingPacks` for a line that names a pack, when the
installer binary is not missing: the installer is run, and the loop goes on only if the
run succeeded. -/
theorem installPacks_cons (env : Env) (b : BuilderParams) (line : Str) (rest : List Str)
    (t : Trace) (hline : removeSpaces line ≠ [])
    (hbin : ∀ u err, env.stat u (cpackgetBinOf b) ≠ .notExist err) :
    installPacks env b (line :: rest) t =
      match env.executeCommand t (cpackgetBinOf b) false (packArgs (removeSpaces line)) with
      | .error err => (some err, t ++ [installEvent b (removeSpaces line)])
      | .ok _ => installPacks env b rest (t ++ [installEvent b (removeSpaces line)]) := by
  conv_lhs => unfold installPacks
  simp only [hline, if_false]
  cases hstat : env.stat t (filepathJoin [b.InstallConfigs.BinPath,
      "cpackget".data ++ b.InstallConfigs.BinExtn]) with
  | notExist err => exact absurd hstat (hbin t err)
  | ok => rfl
  | failed err => rfl

/-- A line that is empty without its spaces is skipped by the loop. -/
theorem installPacks_skip (env : Env) (b : BuilderParams) (line : Str) (rest : List Str)
    (t : Trace) (hline : removeSpaces line = []) :
    installPacks env b (line :: rest) t = installPacks env b rest t := by
  conv_lhs => unfold installPacks
  simp only [hline, if_true]

/-- The loop of `installMissingPacks` stops at the first installation that fails. -/
theorem installPacks_first_failure (env : Env) (b : BuilderParams)
    (hbin : ∀ u err, env.stat u (cpackgetBinOf b) ≠ .notExist err) :
    ∀ (lines : List Str) (t : Trace) (k : Nat) (err : GoError),
      k < (packIdsOfLines lines).length →
      (∀ i, i < k → ∃ out,
        env.executeCommand (t ++ ((packIdsOfLines lines).take i).map (installEvent b))
          (cpackgetBinOf b) false (packArgs ((packIdsOfLines lines).getD i [])) = .ok out) →
      env.executeCommand (t ++ ((packIdsOfLines lines).take k).map (installEvent b))
        (cpackgetBinOf b) false (packArgs ((packIdsOfLines lines).getD k [])) = .error err →
      installPacks env b lines t =
        (some err, t ++ ((packIdsOfLines lines).take (k + 1)).map (installEvent b)) := by
  intro lines
  induction lines with
  | nil => intro t k err hk; simp [packIdsOfLines] at hk
  | cons line rest ih =>
    intro t k err hk hbefore hfail
    by_cases hline : removeSpaces line = []
    · have hids : packIdsOfLines (line :: rest) = packIdsOfLines rest := by
        simp [packIdsOfLines, hline]
      rw [hids] at hk hbefore hfail ⊢
      rw [installPacks_skip env b line rest t hline]
      exact ih t k err hk hbefore hfail
    · have hids : packIdsOfLines (line :: rest) = removeSpaces line :: packIdsOfLines rest := by
        simp [packIdsOfLines, hline]
      rw [hids] at hk hbefore hfail ⊢
      rw [installPacks_cons env b line rest t hline hbin]
      cases k with
      | zero =>
        simp only [List.take_zero, List.map_nil, List.append_nil, List.getD_cons_zero] at hfail
        rw [hfail]
        rfl
      | succ k =>
        obtain ⟨out, h0⟩ := hbefore 0 (Nat.succ_pos k)
        simp only [List.take_zero, List.map_nil, List.append_nil, List.getD_cons_zero] at h0
        rw [h0]
        simp only
        have hk' : k < (packIdsOfLines rest).length := by simpa using hk
        rw [ih (t ++ [installEvent b (removeSpaces line)]) k err hk'
          (fun i hi => by
            have := hbefore (i + 1) (Nat.succ_lt_succ hi)
            simpa using this)
          (by simpa using hfail)]
        simp

/-- The loop of `installMissingPacks` installs every pack when no installation fails. -/
theorem installPacks_no_failure (env : Env) (b : BuilderParams)
    (hbin : ∀ u err, env.stat u (cpackgetBinOf b) ≠ .notExist err) :
    ∀ (lines : List Str) (t : Trace),
      (∀ i, i < (packIdsOfLines lines).length → ∃ out,
        env.executeCommand (t ++ ((packIdsOfLines lines).take i).map (installEvent b))
          (cpackgetBinOf b) false (packArgs ((packIdsOfLines lines).getD i [])) = .ok out) →
      installPacks env b lines t =
        (none, t ++ (packIdsOfLines lines).map (installEvent b)) := by
  intro lines
  induction lines with
  | nil => intro t _; simp [packIdsOfLines, installPacks]
  | cons line rest ih =>
    intro t hall
    by_cases hline : removeSpaces line = []
    · have hids : packIdsOfLines (line :: rest) = packIdsOfLines rest := by
        simp [packIdsOfLines, hline]
      rw [hids] at hall ⊢
      rw [installPacks_skip env b line rest t hline]
      exact ih t hall
    · have hids : packIdsOfLines (line :: rest) = removeSpaces line :: packIdsOfLines rest := by
        simp [packIdsOfLines, hline]
      rw [hids] at hall ⊢
      rw [installPacks_cons env b line rest t hline hbin]
      obtain ⟨out, h0⟩ := hall 0 (by simp)
      simp only [List.take_zero, List.map_nil, List.append_nil, List.getD_cons_zero] at h0
      rw [h0]
      simp only
      rw [ih (t ++ [installEvent b (removeSpaces line)])
        (fun i hi => by
          have := hall (i + 1) (by simpa using hi)
          simpa using this)]
      simp

/-- C12: when the missing-pack listing printed `output` and the installer binary is not
missing, `installMissingPacks` runs the installer once for each line of the listing that is
non-empty without its spaces, in the order of the listing, each time with the arguments
`pack add <id> --force-reinstall --agree-embedded-license`, where `<id>` is the line
without its spaces. At the first installation that fails it returns that error and the
remaining packs are not attempted; if none fails it returns no error. -/
theorem installMissingPacks_in_order (env : Env) (b : BuilderParams) (t t1 : Trace)
    (args : List Str) (output : Str)
    (hargs : formulateArgs b ["list".data, "packs".data] = .ok args)
    (hrun : runCSolution env b (args ++ ["-m".data]) false t = (.ok output, t1))
    (hbin : ∀ u err, env.stat u (cpackgetBinOf b) ≠ .notExist err) :
    (∀ (k : Nat) (err : GoError), k < (missingPackIds output).length →
      (∀ i, i < k → ∃ out,
        env.executeCommand (t1 ++ ((missingPackIds output).take i).map (installEvent b))
          (cpackgetBinOf b) false (packArgs ((missingPackIds output).getD i [])) = .ok out) →
      env.executeCommand (t1 ++ ((missingPackIds output).take k).map (installEvent b))
        (cpackgetBinOf b) false (packArgs ((missingPackIds output).getD k [])) = .error err →
      installMissingPacks env b t =
        (some err, t1 ++ ((missingPackIds output).take (k + 1)).map (installEvent b))) ∧
    ((∀ i, i < (missingPackIds output).length → ∃ out,
        env.executeCommand (t1 ++ ((missingPackIds output).take i).map (installEvent b))
          (cpackgetBinOf b) false (packArgs ((missingPackIds output).getD i [])) = .ok out) →
      installMissingPacks env b t =
        (none, t1 ++ (missingPackIds output).map (installEvent b))) := by
  have hmain : installMissingPacks env b t =
      installPacks env b (stringsSplit '\n' (replaceCRLF (trimSpace output))) t1 := by
    simp only [installMissingPacks, hargs, hrun]
  rw [hmain]
  exact ⟨fun k err hk hbefore hfail =>
      installPacks_first_failure env b hbin _ t1 k err hk hbefore hfail,
    fun hall => installPacks_no_failure env b hbin _ t1 hall⟩

/-- Witness for C12: a listing of two packs with padding, a blank line and CRLF line ends;
both packs are installed, in the order of the listing. -/
theorem installMissingPacks_in_order_witness :
    installMissingPacks (sampleEnv " ARM::CMSIS@5.9.0 \r\n\r\nKeil::ARM_Compiler\n".data [])
        (sampleBuilder sampleOptions) [] =
      (none,
        [Event.executeCommand "/opt/bin/csolution".data false
            ["list".data, "packs".data, "--solution=sol/MySolution.csolution.yml".data,
              "-m".data],
          Event.executeCommand "/opt/bin/cpackget".data false
            ["pack".data, "add".data, "ARM::CMSIS@5.9.0".data, "--force-reinstall".data,
              "--agree-embedded-license".data],
          Event.executeCommand "/opt/bin/cpackget".data false
            ["pack".data, "add".data, "Keil::ARM_Compiler".data, "--force-reinstall".data,
              "--agree-embedded-license".data]]) :=
  (installMissingPacks_in_order
    (sampleEnv " ARM::CMSIS@5.9.0 \r\n\r\nKeil::ARM_Compiler\n".data [])
    (sampleBuilder sampleOptions) []
    [Event.executeCommand "/opt/bin/csolution".data false
      ["list".data, "packs".data, "--solution=sol/MySolution.csolution.yml".data, "-m".data]]
    ["list".data, "packs".data, "--solution=sol/MySolution.csolution.yml".data]
    " ARM::CMSIS@5.9.0 \r\n\r\nKeil::ARM_Compiler\n".data
    (by rfl) (by rfl) (fun _ _ h => StatResult.noConfusion h)).2
    (by intro i hi; exact ⟨_, rfl⟩)

/-! ## Options handed to the per-project builder -/

/-- With a malformed input file name `processContext` stops right after its banner. -/
theorem processContext_rejects (env : Env) (b : BuilderParams) (context : Str) (t : Trace)
    (h3 : (stringsSplit '.' (filepathBase b.InputFile)).length ≠ 3) :
    processContext env b context t =
      (some "invalid csolution file name".data, t ++ [Event.processingContext context]) := by
  unfold processContext
  simp only [h3, ne_eq, not_false_eq_true, if_true]

/-- When the descriptor is not found `processContext` stops after reading the index. -/
theorem processContext_locator_fails (env : Env) (b : BuilderParams) (context cprjFile : Str)
    (err : GoError) (t : Trace)
    (h3 : (stringsSplit '.' (filepathBase b.InputFile)).length = 3)
    (hget : (getCprjFilePath env (indexFileOf b) context
      (t ++ [Event.processingContext context])).1 = (cprjFile, some err)) :
    processContext env b context t =
      (some err,
        t ++ [Event.processingContext context, Event.parseCbuildIndexFile (indexFileOf b)]) := by
  have htr := getCprjFilePath_trace env (indexFileOf b) context
    (t ++ [Event.processingContext context])
  rcases hres : getCprjFilePath env (indexFileOf b) context
    (t ++ [Event.processingContext context]) with ⟨r, t'⟩
  rw [hres] at htr hget
  simp only at htr hget
  subst htr hget
  unfold indexFileOf at hres
  unfold processContext
  simp only [h3, ne_eq, not_true_eq_false, if_false, hres, indexFileOf, List.append_assoc,
    List.singleton_append, List.cons_append, List.nil_append]

/-- Every delegation made by `processContext` carries the builder's options with `OutDir`
and `IntDir` replaced by the paths formulated for the descriptor. -/
theorem processContext_cprjBuild (env : Env) (b : BuilderParams) (context : Str) (t : Trace)
    (params : BuilderParams)
    (h : Event.cprjBuild params ∈ ((processContext env b context t).2).drop t.length) :
    ∃ cprjFile, params =
      { Options := { b.Options with
          OutDir := formulatePath cprjFile "out".data (env.parseContext context).1
          IntDir := formulatePath cprjFile "tmp".data (env.parseContext context).1 }
        InputFile := cprjFile
        InstallConfigs := b.InstallConfigs } := by
  by_cases h3 : (stringsSplit '.' (filepathBase b.InputFile)).length = 3
  · rcases hget : (getCprjFilePath env (indexFileOf b) context
      (t ++ [Event.processingContext context])).1 with ⟨cprjFile, err⟩
    cases err with
    | some err =>
      rw [processContext_locator_fails env b context cprjFile err t h3 hget] at h
      simp at h
    | none =>
      rw [processContext_delegates env b context cprjFile t h3 hget] at h
      simp only [List.drop_left, List.mem_cons, List.mem_singleton, Event.cprjBuild.injEq,
        List.not_mem_nil, or_false] at h
      rcases h with h | h | h
      · cases h
      · cases h
      · exact ⟨cprjFile, h⟩
  · rw [processContext_rejects env b context t h3] at h
    simp at h

/-- Every delegation made by the loop of step 2 is made by the processing of one of the
selected contexts, with the same builder. -/
theorem processContexts_cprjBuild (env : Env) (b : BuilderParams) (params : BuilderParams) :
    ∀ (cs : List Str) (t : Trace),
      Event.cprjBuild params ∈ ((processContexts env b cs t).2).drop t.length →
      ∃ c ∈ cs, ∃ t', Event.cprjBuild params ∈
        ((processContext env b c t').2).drop t'.length := by
  intro cs
  induction cs with
  | nil => intro t h; simp [processContexts] at h
  | cons c rest ih =>
    intro t h
    obtain ⟨evs, hevs, -, -⟩ := processContext_events env b c t
    rcases hpc : processContext env b c t with ⟨r, t1⟩
    rw [hpc] at hevs
    simp only at hevs
    subst hevs
    cases r with
    | some err =>
      have hres : processContexts env b (c :: rest) t = (some err, t ++ evs) := by
        simp only [processContexts, hpc]
      rw [hres] at h
      exact ⟨c, List.mem_cons_self _ _, t, by rw [hpc]; exact h⟩
    | none =>
      have hres : processContexts env b (c :: rest) t = processContexts env b rest (t ++ evs) := by
        simp only [processContexts, hpc]
      obtain ⟨evs', hevs', -, -⟩ := processContexts_events env b rest (t ++ evs)
      rw [hres, hevs', List.append_assoc, List.drop_left] at h
      rcases List.mem_append.mp h with h1 | h2
      · exact ⟨c, List.mem_cons_self _ _, t, by rw [hpc, List.drop_left]; exact h1⟩
      · obtain ⟨c', hc', t', ht'⟩ := ih (t ++ evs) (by rw [hevs', List.drop_left]; exact h2)
        exact ⟨c', List.mem_cons_of_mem _ hc', t', ht'⟩

/-- C13: `processContext` behaves the same whatever `OutDir` and `IntDir` the user
supplied, so it does not fail because of them, also when `Output` is set. The options of
every delegation to the per-project builder are the orchestrator's options with only
`OutDir` and `IntDir` replaced, by the directories formulated for the descriptor of the
context; every other field, `Output` included, is unchanged. The same holds for every
context of the loop of step 2: the orchestrator's options stay as they were. -/
theorem processContext_options_frame (env : Env) (b : BuilderParams) (context : Str)
    (t : Trace) :
    (∀ outDir intDir : Str,
      processContext env
          { b with Options := { b.Options with OutDir := outDir, IntDir := intDir } }
          context t =
        processContext env b context t) ∧
    (∀ params, Event.cprjBuild params ∈ ((processContext env b context t).2).drop t.length →
      params.Options = { b.Options with
        OutDir := formulatePath params.InputFile "out".data (env.parseContext context).1
        IntDir := formulatePath params.InputFile "tmp".data (env.parseContext context).1 } ∧
      params.Options.Output = b.Options.Output ∧
      params.InstallConfigs = b.InstallConfigs) ∧
    (∀ (cs : List Str) (params : BuilderParams),
      Event.cprjBuild params ∈ ((processContexts env b cs t).2).drop t.length →
      params.Options = { b.Options with
        OutDir := params.Options.OutDir, IntDir := params.Options.IntDir }) := by
  refine ⟨fun outDir intDir => rfl, ?_, ?_⟩
  · intro params h
    obtain ⟨cprjFile, hp⟩ := processContext_cprjBuild env b context t params h
    subst hp
    exact ⟨rfl, rfl, rfl⟩
  · intro cs params h
    obtain ⟨c, -, t', h'⟩ := processContexts_cprjBuild env b params cs t h
    obtain ⟨cprjFile, hp⟩ := processContext_cprjBuild env b c t' params h'
    subst hp
    rfl

/-- Witness for C13: with `Output`, `OutDir` and `IntDir` all set, the run is the one
without the two directory options, and the per-project builder receives the formulated
directories together with the unchanged `Output`. -/
theorem processContext_options_frame_witness :
    processContext (sampleEnv [] ["App.Debug+Board.cbuild.yml".data])
        (sampleBuilder { sampleOptions with
          Output := "gen".data, OutDir := "myout".data, IntDir := "myint".data })
        "App.Debug+Board".data [] =
      processContext (sampleEnv [] ["App.Debug+Board.cbuild.yml".data])
        (sampleBuilder { sampleOptions with Output := "gen".data })
        "App.Debug+Board".data [] ∧
    (processContext (sampleEnv [] ["App.Debug+Board.cbuild.yml".data])
        (sampleBuilder { sampleOptions with
          Output := "gen".data, OutDir := "myout".data, IntDir := "myint".data })
        "App.Debug+Board".data []).2 =
      [Event.processingContext "App.Debug+Board".data,
        Event.parseCbuildIndexFile "gen/MySolution.cbuild-idx.yml".data,
        Event.cprjBuild
          { Options := { sampleOptions with
              Output := "gen".data, OutDir := "gen/out/App/Debug/Board".data,
              IntDir := "gen/tmp/App/Debug/Board".data }
            InputFile := "gen/./App.Debug+Board.cprj".data
            InstallConfigs :=
              { BinPath := "/opt/bin".data, BinExtn := [], EtcPath := "/opt/etc".data } }] :=
  ⟨(processContext_options_frame (sampleEnv [] ["App.Debug+Board.cbuild.yml".data])
      (sampleBuilder { sampleOptions with Output := "gen".data })
      "App.Debug+Board".data []).1 "myout".data "myint".data, by rfl⟩

/-! ## The flag vector -/

/-- Keeping the rows of a flag table whose condition holds, row by row. -/
theorem flagTable_cons (c : Bool) (flag : Str) (rows : List (Bool × Str)) :
    (((c, flag) :: rows).filter (fun row => row.1)).map (fun row => row.2) =
      (if c then [flag] else []) ++ (rows.filter (fun row => row.1)).map (fun row => row.2) := by
  cases c <;> simp

/-- C14: when `Context` and `Configuration` are not both set, `formulateArgs` returns the
words of the command followed by the flags of the specification's table, in its order and
with nothing else: `--solution=`, `--output=`, `--load=` with their values when these are
non-empty, `--no-check-schema` and `--no-update-rte` when the flags are off,
`--context=*<Configuration>`, `--context=<Context>` and `--filter=<Filter>` when these
are non-empty, and `--verbose` when it is on. -/
theorem formulateArgs_flag_vector (b : BuilderParams) (command : List Str)
    (h : ¬ (b.Options.Context ≠ [] ∧ b.Options.Configuration ≠ [])) :
    formulateArgs b command = .ok (command ++ specFlagVector b) := by
  unfold formulateArgs specFlagVector
  rw [if_neg h]
  simp only [flagTable_cons, List.filter_nil, List.map_nil, List.append_nil,
    List.append_assoc, decide_eq_true_eq]

/-- Witness for C14: a builder with `Output`, `Filter` and `Verbose` set and the schema
check off. -/
theorem formulateArgs_flag_vector_witness :
    formulateArgs (sampleBuilder { sampleOptions with
        Output := "gen".data, Schema := false, Filter := "Deb".data, Verbose := true })
        ["list".data, "contexts".data] =
      .ok ["list".data, "contexts".data, "--solution=sol/MySolution.csolution.yml".data,
        "--output=gen".data, "--no-check-schema".data, "--filter=Deb".data,
        "--verbose".data] :=
  formulateArgs_flag_vector (sampleBuilder { sampleOptions with
      Output := "gen".data, Schema := false, Filter := "Deb".data, Verbose := true })
    ["list".data, "contexts".data] (by decide)

/-! ## The order of the catalog used by `Build` -/

/-- The arguments formulated for a command start with the words of the command. -/
theorem formulateArgs_prefix {b : BuilderParams} {command args : List Str}
    (h : formulateArgs b command = .ok args) : ∃ flags, args = command ++ flags := by
  unfold formulateArgs at h
  split at h
  · cases h
  · cases h
    simp only [List.append_assoc]
    exact ⟨_, rfl⟩

/-- An event that is not a `list contexts` invocation satisfies `ymlOrderListing`. -/
theorem ymlOrderListing_of_other (b : BuilderParams) (e : Event)
    (h : ∀ bin quiet args, e = Event.executeCommand bin quiet args →
      args.take 2 ≠ ["list".data, "contexts".data]) : ymlOrderListing b e :=
  fun bin quiet args he htake => absurd htake (h bin quiet args he)

/-- The events of `runCSolution` for arguments other than those of `list contexts`. -/
theorem runCSolution_ymlOrder (env : Env) (b b' : BuilderParams) (args : List Str)
    (quite : Bool) (t : Trace) (hargs : args.take 2 ≠ ["list".data, "contexts".data]) :
    ∃ evs, (runCSolution env b' args quite t).2 = t ++ evs ∧
      ∀ e ∈ evs, ymlOrderListing b e := by
  rcases runCSolution_cases env b' args quite t with ⟨err, -, h⟩ | ⟨-, h⟩
  · exact ⟨[], by simp [h], by simp⟩
  · refine ⟨_, by rw [h], ?_⟩
    intro e he
    rw [List.mem_singleton] at he
    subst he
    apply ymlOrderListing_of_other
    intro bin quiet args' heq
    cases heq
    exact hargs

/-- The pack installations are not `list contexts` invocations. -/
theorem installPacks_ymlOrder (env : Env) (b b' : BuilderParams) :
    ∀ (packs : List Str) (t : Trace),
      ∃ evs, (installPacks env b' packs t).2 = t ++ evs ∧
        ∀ e ∈ evs, ymlOrderListing b e := by
  intro packs
  induction packs with
  | nil => intro t; exact ⟨[], by simp [installPacks], by simp⟩
  | cons pack rest ih =>
    intro t
    have hev : ymlOrderListing b (installEvent b' (removeSpaces pack)) := by
      apply ymlOrderListing_of_other
      intro bin quiet args heq
      cases heq
      simp [packArgs]
    unfold installPacks
    simp only
    split
    · exact ih t
    · split
      · exact ⟨[], by simp, by simp⟩
      · split
        · refine ⟨[installEvent b' (removeSpaces pack)], rfl, ?_⟩
          intro e he
          rw [List.mem_singleton] at he
          subst he
          exact hev
        · obtain ⟨evs, hevs, hall⟩ := ih (t ++ [installEvent b' (removeSpaces pack)])
          refine ⟨installEvent b' (removeSpaces pack) :: evs, ?_, ?_⟩
          · show (installPacks env b' rest (t ++ [installEvent b' (removeSpaces pack)])).2 = _
            rw [hevs, List.append_assoc]
            rfl
          · intro e he
            rcases List.mem_cons.mp he with h | h
            · subst h
              exact hev
            · exact hall e h

/-- The events of `installMissingPacks` are not `list contexts` invocations. -/
theorem installMissingPacks_ymlOrder (env : Env) (b b' : BuilderParams) (t : Trace) :
    ∃ evs, (installMissingPacks env b' t).2 = t ++ evs ∧
      ∀ e ∈ evs, ymlOrderListing b e := by
  unfold installMissingPacks
  split
  · exact ⟨[], by simp, by simp⟩
  · rename_i args hargs
    obtain ⟨flags, hflags⟩ := formulateArgs_prefix hargs
    have htake : (args ++ ["-m".data]).take 2 ≠ ["list".data, "contexts".data] := by
      subst hflags
      simp
    obtain ⟨evs, hevs, hall⟩ := runCSolution_ymlOrder env b b' _ false t htake
    rcases hrun : runCSolution env b' (args ++ ["-m".data]) false t with ⟨r, t1⟩
    rw [hrun] at hevs
    simp only at hevs
    subst hevs
    cases r with
    | error err => exact ⟨evs, rfl, hall⟩
    | ok output =>
      simp only
      obtain ⟨evs', hevs', hall'⟩ :=
        installPacks_ymlOrder env b b' (stringsSplit '\n' (replaceCRLF (trimSpace output)))
          (t ++ evs)
      refine ⟨evs ++ evs', by rw [hevs', List.append_assoc], ?_⟩
      intro e he
      rcases List.mem_append.mp he with h | h
      · exact hall e h
      · exact hall' e h

/-- The listing made by `Build` is quiet and requests the declaration order. -/
theorem listContexts_ymlOrder (env : Env) (b : BuilderParams) (t : Trace) :
    ∃ evs, (listContexts env b true true t).2 = t ++ evs ∧
      ∀ e ∈ evs, ymlOrderListing b e := by
  unfold listContexts
  split
  · exact ⟨[], by simp, by simp⟩
  · rename_i args hargs
    simp only [if_true]
    rcases runCSolution_cases env b (args ++ ["--yml-order".data]) true t with
      ⟨err, -, h⟩ | ⟨-, h⟩
    · rw [h]
      exact ⟨[], by simp, by simp⟩
    · rw [h]
      have hev : ∀ e ∈ [Event.executeCommand (csolutionBinOf b) true
          (args ++ ["--yml-order".data])], ymlOrderListing b e := by
        intro e he
        rw [List.mem_singleton] at he
        subst he
        intro bin quiet args' heq _
        cases heq
        exact ⟨rfl, args, hargs, rfl⟩
      cases env.executeCommand t (csolutionBinOf b) true
        (args ++ ["--yml-order".data]) with
      | error err => exact ⟨_, rfl, hev⟩
      | ok output => exact ⟨_, rfl, hev⟩

/-- The events of the preparation phase of `Build` contain no `list contexts` invocation
other than the quiet one in declaration order. -/
theorem buildPrepare_ymlOrder (env : Env) (b : BuilderParams) (t : Trace) :
    ∃ evs, (buildPrepare env b t).2 = t ++ evs ∧ ∀ e ∈ evs, ymlOrderListing b e := by
  unfold buildPrepare
  simp only
  have hsetup : ymlOrderListing b
      (Event.updateEnvVars b.InstallConfigs.BinPath b.InstallConfigs.EtcPath) :=
    fun bin quiet args he => by cases he
  obtain ⟨evs, hevs, hall⟩ := listContexts_ymlOrder env b
    (t ++ [Event.updateEnvVars b.InstallConfigs.BinPath b.InstallConfigs.EtcPath])
  rcases hlist : listContexts env b true true
    (t ++ [Event.updateEnvVars b.InstallConfigs.BinPath b.InstallConfigs.EtcPath]) with ⟨r, t1⟩
  rw [hlist] at hevs
  simp only at hevs
  subst hevs
  have hbase : ∃ evs1, t ++ [Event.updateEnvVars b.InstallConfigs.BinPath
      b.InstallConfigs.EtcPath] ++ evs = t ++ evs1 ∧ ∀ e ∈ evs1, ymlOrderListing b e := by
    refine ⟨Event.updateEnvVars b.InstallConfigs.BinPath b.InstallConfigs.EtcPath :: evs,
      by simp, ?_⟩
    intro e he
    rcases List.mem_cons.mp he with h | h
    · subst h
      exact hsetup
    · exact hall e h
  cases r with
  | error err => exact hbase
  | ok allContexts =>
    simp only
    split
    · exact hbase
    · rename_i b' selectedContexts _
      split
      · exact hbase
      · split
        · obtain ⟨evs2, hevs2, hall2⟩ := installMissingPacks_ymlOrder env b b'
            (t ++ [Event.updateEnvVars b.InstallConfigs.BinPath b.InstallConfigs.EtcPath] ++ evs)
          obtain ⟨evs1, hevs1, hall1⟩ := hbase
          have hboth : ∃ evs3, (installMissingPacks env b' (t ++ [Event.updateEnvVars
              b.InstallConfigs.BinPath b.InstallConfigs.EtcPath] ++ evs)).2 = t ++ evs3 ∧
              ∀ e ∈ evs3, ymlOrderListing b e := by
            refine ⟨evs1 ++ evs2, by rw [hevs2, hevs1, List.append_assoc], ?_⟩
            intro e he
            rcases List.mem_append.mp he with h | h
            · exact hall1 e h
            · exact hall2 e h
          split
          · rename_i heq
            rw [heq] at hboth
            exact hboth
          · rename_i heq
            rw [heq] at hboth
            exact hboth
        · exact hbase

/-- In a run of `Build` every `list contexts` invocation is the quiet one that requests the
declaration order. -/
theorem build_ymlOrder (env : Env) (b : BuilderParams) (t : Trace) :
    ∀ e ∈ ((Build env b t).2).drop t.length, ymlOrderListing b e := by
  obtain ⟨evsP, hP, hallP⟩ := buildPrepare_ymlOrder env b t
  rcases hbp : buildPrepare env b t with ⟨r, t1⟩
  rw [hbp] at hP
  simp only at hP
  subst hP
  cases r with
  | error err =>
    have hbuild : Build env b t = (some err, t ++ evsP) := by simp only [Build, hbp]
    rw [hbuild, List.drop_left]
    exact hallP
  | ok v =>
    obtain ⟨b', cs, args⟩ := v
    have hargs := buildPrepare_ok hbp
    cases hlookup : (getCSolutionPath env b' (t ++ evsP)).2 with
    | some err =>
      rw [build_lookup_fails hbp hlookup, List.drop_left]
      exact hallP
    | none =>
      obtain ⟨evs, hevs, hno, -⟩ := build_after_prepare hbp hlookup
      rw [hevs, List.append_assoc, List.drop_left]
      intro e he
      rcases List.mem_append.mp he with h | h
      · exact hallP e h
      · rcases List.mem_cons.mp h with h | h
        · subst h
          apply ymlOrderListing_of_other
          intro bin quiet args' heq
          cases heq
          obtain ⟨flags, hflags⟩ := formulateArgs_prefix hargs
          subst hflags
          simp
        · apply ymlOrderListing_of_other
          intro bin quiet args' heq
          subst heq
          exact absurd h (hno bin quiet args')

/-- C15 fails as stated: with `Context` set to `App.Debug+Board`, the `list contexts`
invocation of `Build`, whose output is the catalog used for the validation, carries the
flag `--yml-order`. -/
theorem build_with_context_lists_in_yml_order :
    (sampleBuilder { sampleOptions with Context := "App.Debug+Board".data }).Options.Context
      ≠ [] ∧
    ((Build (sampleEnv "App.Debug+Board\nApp.Release+Board\n".data
        ["App.Debug+Board.cbuild.yml".data])
      (sampleBuilder { sampleOptions with Context := "App.Debug+Board".data }) []).2).take 2 =
      [Event.updateEnvVars "/opt/bin".data "/opt/etc".data,
        Event.executeCommand "/opt/bin/csolution".data true
          ["list".data, "contexts".data, "--solution=sol/MySolution.csolution.yml".data,
            "--context=App.Debug+Board".data, "--yml-order".data]] := by
  refine ⟨by decide, by rfl⟩

/-- C15, amended: in every run of `Build`, whether `Context` is set or not, every
`list contexts` invocation is quiet and carries the arguments formulated for the command
followed by `--yml-order`; the catalog it returns is the one against which a set `Context`
is validated: a failed validation against it is the result of `Build`, and a successful
one makes the validated context the only context processed. -/
theorem build_lists_contexts_in_yml_order (env : Env) (b : BuilderParams) (t : Trace) :
    (∀ bin quiet args,
      Event.executeCommand bin quiet args ∈ ((Build env b t).2).drop t.length →
      args.take 2 = ["list".data, "contexts".data] →
      quiet = true ∧ ∃ base, formulateArgs b ["list".data, "contexts".data] = .ok base ∧
        args = base ++ ["--yml-order".data]) ∧
    (∀ (catalog : List Str) (t1 : Trace),
      listContexts env b true true
        (t ++ [Event.updateEnvVars b.InstallConfigs.BinPath b.InstallConfigs.EtcPath]) =
        (.ok catalog, t1) →
      b.Options.Context ≠ [] →
      (∀ err, (validateContext env catalog b.Options.Context).2 = some err →
        Build env b t = (some err, t1)) ∧
      (∀ b' cs args t2, buildPrepare env b t = (.ok (b', cs, args), t2) →
        cs = [(validateContext env catalog b.Options.Context).1])) := by
  constructor
  · intro bin quiet args hmem htake
    exact build_ymlOrder env b t _ hmem bin quiet args rfl htake
  · intro catalog t1 hlist hctx
    constructor
    · intro err herr
      rcases hval : validateContext env catalog b.Options.Context with ⟨context, verr⟩
      rw [hval] at herr
      simp only at herr
      subst herr
      simp only [Build, buildPrepare, hlist, selectContexts, hctx, ne_eq, not_false_eq_true,
        if_true, hval]
    · intro b' cs args t2 hprep
      rcases hval : validateContext env catalog b.Options.Context with ⟨context, verr⟩
      cases verr with
      | some err =>
        simp only [buildPrepare, hlist, selectContexts, hctx, ne_eq, not_false_eq_true,
          if_true, hval] at hprep
        cases hprep
      | none =>
        simp only [buildPrepare, hlist, selectContexts, hctx, ne_eq, not_false_eq_true,
          if_true, hval] at hprep
        split at hprep
        · cases hprep
        · split at hprep
          · split at hprep
            · cases hprep
            · cases hprep
              rfl
          · cases hprep
            rfl

/-! ## White space in the entries of a listing -/

/-- The characters of a token of `stringsSplit` are characters of the string. -/
theorem mem_of_mem_stringsSplit (sep c : Char) :
    ∀ (s : Str) (e : Str), e ∈ stringsSplit sep s → c ∈ e → c ∈ s := by
  intro s
  induction s with
  | nil =>
    intro e he hc
    simp only [stringsSplit, List.mem_singleton] at he
    subst he
    exact hc
  | cons x s ih =>
    intro e he hc
    unfold stringsSplit at he
    split at he
    · rcases List.mem_cons.mp he with h | h
      · subst h
        simp at hc
      · exact List.mem_cons_of_mem _ (ih e h hc)
    · split at he
      · rename_i hsplit
        exact absurd hsplit (stringsSplit_ne_nil sep s)
      · rename_i tok toks hsplit
        rw [hsplit] at ih
        rcases List.mem_cons.mp he with h | h
        · subst h
          rcases List.mem_cons.mp hc with h' | h'
          · rw [h']
            exact List.mem_cons_self _ _
          · exact List.mem_cons_of_mem _ (ih tok (List.mem_cons_self _ _) h')
        · exact List.mem_cons_of_mem _ (ih e (List.mem_cons_of_mem _ h) hc)

/-- The characters of `replaceCRLF s` are characters of `s`. -/
theorem mem_of_mem_replaceCRLF (c : Char) :
    ∀ (n : Nat) (s : Str), s.length ≤ n → c ∈ replaceCRLF s → c ∈ s := by
  intro n
  induction n with
  | zero =>
    intro s hs hc
    have : s = [] := List.length_eq_zero.mp (Nat.le_zero.mp hs)
    subst this
    simp [replaceCRLF] at hc
  | succ n ih =>
    intro s hs hc
    match s, hs, hc with
    | [], _, hc => simp [replaceCRLF] at hc
    | [x], _, hc => simpa [replaceCRLF] using hc
    | x :: y :: s, hs, hc =>
      unfold replaceCRLF at hc
      split at hc
      · rename_i hxy
        rcases List.mem_cons.mp hc with h | h
        · rw [h, ← hxy.2]
          simp
        · have := ih s (by simp at hs; omega) h
          simp [this]
      · rcases List.mem_cons.mp hc with h | h
        · rw [h]
          exact List.mem_cons_self _ _
        · exact List.mem_cons_of_mem _ (ih (y :: s) (by simp at hs ⊢; omega) h)

/-- The characters of `trimSpace s` are characters of `s`. -/
theorem mem_of_mem_trimSpace {c : Char} {s : Str} (h : c ∈ trimSpace s) : c ∈ s := by
  unfold trimSpace at h
  rw [List.mem_reverse] at h
  have h1 := (List.dropWhile_sublist isSpace).subset h
  rw [List.mem_reverse] at h1
  exact (List.dropWhile_sublist isSpace).subset h1

/-- No entry parsed from the output of a listing contains a space or a line feed. -/
theorem parseListOutput_entries (output : Str) :
    ∀ e ∈ parseListOutput output, ' ' ∉ e ∧ '\n' ∉ e := by
  intro e he
  unfold parseListOutput at he
  simp only at he
  split at he
  · constructor
    · intro hc
      have h1 := mem_of_mem_stringsSplit '\n' ' ' _ e he hc
      have h2 := mem_of_mem_replaceCRLF ' ' _ _ (Nat.le_refl _) h1
      have h3 := mem_of_mem_trimSpace h2
      simp [removeSpaces] at h3
    · exact not_mem_of_mem_stringsSplit '\n' _ e he
  · simp at he

/-- The result of a successful `listContexts` is parsed from the output of the runner. -/
theorem listContexts_ok_output {env : Env} {b : BuilderParams} {quite ymlOrder : Bool}
    {t t' : Trace} {entries : List Str}
    (h : listContexts env b quite ymlOrder t = (.ok entries, t')) :
    ∃ args output, env.executeCommand t (csolutionBinOf b) quite args = .ok output ∧
      entries = parseListOutput output := by
  unfold listContexts at h
  split at h
  · cases h
  · rename_i args _
    rcases runCSolution_cases env b (if ymlOrder then args ++ ["--yml-order".data] else args)
      quite t with ⟨err, -, hrun⟩ | ⟨-, hrun⟩
    · rw [hrun] at h
      cases h
    · rw [hrun] at h
      cases hexec : env.executeCommand t (csolutionBinOf b) quite
        (if ymlOrder then args ++ ["--yml-order".data] else args) with
      | error err =>
        rw [hexec] at h
        cases h
      | ok output =>
        rw [hexec] at h
        cases h
        exact ⟨_, output, hexec, rfl⟩

/-- The result of a successful `listToolchains` is parsed from the output of the runner. -/
theorem listToolchains_ok_output {env : Env} {b : BuilderParams} {quite : Bool}
    {t t' : Trace} {entries : List Str}
    (h : listToolchains env b quite t = (.ok entries, t')) :
    ∃ args output, env.executeCommand t (csolutionBinOf b) quite args = .ok output ∧
      entries = parseToolchainsOutput output := by
  unfold listToolchains at h
  split at h
  · cases h
  · rename_i args _
    rcases runCSolution_cases env b args quite t with ⟨err, -, hrun⟩ | ⟨-, hrun⟩
    · rw [hrun] at h
      cases h
    · rw [hrun] at h
      cases hexec : env.executeCommand t (csolutionBinOf b) quite args with
      | error err =>
        rw [hexec] at h
        cases h
      | ok output =>
        rw [hexec] at h
        cases h
        exact ⟨_, output, hexec, rfl⟩

/-- C16 fails as stated: for the tool output `A<tab>B+C`, both `listContexts` and
`listToolchains` return the single entry `A<tab>B+C`, which contains a tab; for the
output `A<CR>B` the entry contains a carriage return. -/
theorem listing_keeps_tab_inside_entry :
    (listContexts (sampleEnv "A\tB+C\n".data []) (sampleBuilder sampleOptions)
        true false []).1 = .ok ["A\tB+C".data] ∧
    (listToolchains (sampleEnv "A\tB+C\n".data []) (sampleBuilder sampleOptions)
        true []).1 = .ok ["A\tB+C".data] ∧
    '\t' ∈ "A\tB+C".data ∧
    parseListOutput "A\rB".data = ["A\rB".data] ∧ '\r' ∈ "A\rB".data := by
  refine ⟨by rfl, by rfl, by decide, by rfl, by decide⟩

/-- C16, amended: no entry returned by `listContexts` or `listToolchains` contains a space
or a line feed, and both operations parse the same output into the same sequence. -/
theorem listing_entries_without_space (env : Env) (b : BuilderParams) (quite ymlOrder : Bool)
    (t : Trace) :
    (∀ entries t', listContexts env b quite ymlOrder t = (.ok entries, t') →
      (∀ e ∈ entries, ' ' ∉ e ∧ '\n' ∉ e) ∧
      ∃ args output, env.executeCommand t (csolutionBinOf b) quite args = .ok output ∧
        entries = parseListOutput output) ∧
    (∀ entries t', listToolchains env b quite t = (.ok entries, t') →
      (∀ e ∈ entries, ' ' ∉ e ∧ '\n' ∉ e) ∧
      ∃ args output, env.executeCommand t (csolutionBinOf b) quite args = .ok output ∧
        entries = parseToolchainsOutput output) ∧
    (∀ output, parseToolchainsOutput output = parseListOutput output) := by
  refine ⟨?_, ?_, fun _ => rfl⟩
  · intro entries t' h
    obtain ⟨args, output, hexec, hent⟩ := listContexts_ok_output h
    refine ⟨?_, args, output, hexec, hent⟩
    rw [hent]
    exact parseListOutput_entries output
  · intro entries t' h
    obtain ⟨args, output, hexec, hent⟩ := listToolchains_ok_output h
    refine ⟨?_, args, output, hexec, hent⟩
    rw [hent]
    exact parseListOutput_entries output

/-! ## The filter of `listConfigurations` -/

/-- Every runner call of `listContexts` carries the arguments formulated for the command
`list contexts`, followed by `--yml-order` when the declaration order is requested. -/
theorem listContexts_events (env : Env) (b : BuilderParams) (quite ymlOrder : Bool)
    (t : Trace) :
    ∀ e ∈ ((listContexts env b quite ymlOrder t).2).drop t.length,
      ∃ base, formulateArgs b ["list".data, "contexts".data] = .ok base ∧
        e = Event.executeCommand (csolutionBinOf b) quite
          (if ymlOrder then base ++ ["--yml-order".data] else base) := by
  intro e he
  unfold listContexts at he
  split at he
  · simp at he
  · rename_i args hargs
    rcases runCSolution_cases env b (if ymlOrder then args ++ ["--yml-order".data] else args)
      quite t with ⟨err, -, hrun⟩ | ⟨-, hrun⟩
    · rw [hrun] at he
      simp at he
    · rw [hrun] at he
      have hmem : e ∈ [Event.executeCommand (csolutionBinOf b) quite
          (if ymlOrder then args ++ ["--yml-order".data] else args)] := by
        cases hexec : env.executeCommand t (csolutionBinOf b) quite
          (if ymlOrder then args ++ ["--yml-order".data] else args) with
        | error err =>
          rw [hexec] at he
          simpa using he
        | ok output =>
          rw [hexec] at he
          simpa using he
      rw [List.mem_singleton] at hmem
      exact ⟨args, hargs, hmem⟩

/-- The interactions of `listConfigurations` are those of its context listing, which is
made with the filter cleared. -/
theorem listConfigurations_trace (env : Env) (b : BuilderParams) (t : Trace) :
    (listConfigurations env b t).2 =
      (listContexts env { b with Options := { b.Options with Filter := [] } } true false t).2 := by
  unfold listConfigurations
  simp only
  rcases listContexts env { b with Options := { b.Options with Filter := [] } } true false t
    with ⟨r, t'⟩
  cases r with
  | error err => rfl
  | ok contexts =>
    simp only
    split <;> rfl

/-- Without a filter no formulated argument starts with `--filter=`, apart from words of
the command itself. -/
theorem formulateArgs_no_filter {b : BuilderParams} {command args : List Str}
    (h : formulateArgs b command = .ok args) (hf : b.Options.Filter = []) :
    ∀ a ∈ args, "--filter=".data <+: a → a ∈ command := by
  unfold formulateArgs at h
  split at h
  · cases h
  · cases h
    intro a ha hpre
    simp only [hf, ne_eq, not_true_eq_false, if_false, List.append_nil, List.mem_append] at ha
    rcases ha with (((((((ha | ha) | ha) | ha) | ha) | ha) | ha) | ha) | ha
    · exact ha
    all_goals
      split at ha
      · rw [List.mem_singleton] at ha
        subst ha
        simp at hpre
      · simp at ha

/-- With a filter the formulated arguments contain `--filter=<Filter>`. -/
theorem formulateArgs_has_filter {b : BuilderParams} {command args : List Str}
    (h : formulateArgs b command = .ok args) (hf : b.Options.Filter ≠ []) :
    "--filter=".data ++ b.Options.Filter ∈ args := by
  unfold formulateArgs at h
  split at h
  · cases h
  · cases h
    simp [hf]

/-- C17: the filter of `listConfigurations` is not forwarded to the external tool. The
interactions of `listConfigurations` are the same for all builders that differ only in
`Filter`; its only runner call is the quiet `list contexts` invocation with the arguments
formulated for the builder with the filter cleared, none of which starts with `--filter=`.
The caller's builder keeps its `Filter`: `listContexts` called directly on it, at any
point and so also afterwards, passes `--filter=<Filter>` when the filter is non-empty. -/
theorem listConfigurations_filter_not_forwarded (env : Env) (b : BuilderParams) (t : Trace) :
    (∀ filter : Str,
      (listConfigurations env { b with Options := { b.Options with Filter := filter } } t).2 =
        (listConfigurations env b t).2) ∧
    (∀ e ∈ ((listConfigurations env b t).2).drop t.length,
      ∃ args, formulateArgs { b with Options := { b.Options with Filter := [] } }
          ["list".data, "contexts".data] = .ok args ∧
        e = Event.executeCommand (csolutionBinOf b) true args ∧
        ∀ a ∈ args, ¬ "--filter=".data <+: a) ∧
    (b.Options.Filter ≠ [] →
      ∀ (quite ymlOrder : Bool) (u : Trace) (bin : Str) (quiet : Bool) (args : List Str),
        Event.executeCommand bin quiet args ∈
          ((listContexts env b quite ymlOrder u).2).drop u.length →
        "--filter=".data ++ b.Options.Filter ∈ args) := by
  refine ⟨?_, ?_, ?_⟩
  · intro filter
    rw [listConfigurations_trace, listConfigurations_trace]
  · intro e he
    rw [listConfigurations_trace] at he
    obtain ⟨base, hbase, heq⟩ := listContexts_events env _ true false t e he
    refine ⟨base, hbase, heq, ?_⟩
    intro a ha hpre
    have hcmd := formulateArgs_no_filter hbase rfl a ha hpre
    simp only [List.mem_cons, List.mem_singleton, List.not_mem_nil, or_false] at hcmd
    rcases hcmd with h | h
    · subst h
      simp at hpre
    · subst h
      simp at hpre
  · intro hf quite ymlOrder u bin quiet args hmem
    obtain ⟨base, hbase, heq⟩ := listContexts_events env b quite ymlOrder u _ hmem
    cases heq
    have hin := formulateArgs_has_filter hbase hf
    cases ymlOrder with
    | true =>
      simp only [if_true, List.mem_append]
      exact Or.inl hin
    | false =>
      simp only [Bool.false_eq_true, if_false]
      exact hin

/-- Witness for C17: with the filter `Debug` the listing made by `listConfigurations`
carries no `--filter=` argument, while a direct `listContexts` on the same builder does. -/
theorem listConfigurations_filter_not_forwarded_witness :
    (listConfigurations (sampleEnv "App.Debug+Board\n".data [])
        (sampleBuilder { sampleOptions with Filter := "Debug".data }) []).2 =
      (listConfigurations (sampleEnv "App.Debug+Board\n".data [])
        (sampleBuilder sampleOptions) []).2 ∧
    (listConfigurations (sampleEnv "App.Debug+Board\n".data [])
        (sampleBuilder { sampleOptions with Filter := "Debug".data }) []).2 =
      [Event.executeCommand "/opt/bin/csolution".data true
        ["list".data, "contexts".data, "--solution=sol/MySolution.csolution.yml".data]] ∧
    (listContexts (sampleEnv "App.Debug+Board\n".data [])
        (sampleBuilder { sampleOptions with Filter := "Debug".data }) true false []).2 =
      [Event.executeCommand "/opt/bin/csolution".data true
        ["list".data, "contexts".data, "--solution=sol/MySolution.csolution.yml".data,
          "--filter=Debug".data]] :=
  ⟨(listConfigurations_filter_not_forwarded (sampleEnv "App.Debug+Board\n".data [])
      (sampleBuilder sampleOptions) []).1 "Debug".data, by rfl, by rfl⟩

end CSolution
